import Mathlib

/-!
Verification of the reachability index of
tensorflow/compiler/xla/service/hlo_reachability.h.

The repository provides the header only.  The BitVector class, the queries
IsReachable / IsConnected / IsPresent, GetIndex and the constructor signature
are defined inline in the header and are embedded here directly from that
source.  The bodies of Build, BuildWithRestrictions, SetReachabilityToUnion,
FastSetReachabilityToUnion, UpdateReachabilityThroughInstruction and Replace
live in the missing hlo_reachability.cc; those are modelled from the
specification (spec.md sections 4.3 and 8), as marked on each definition.

Instructions are represented by their identity keys (the uint64 produced by
GetKey), i.e. by plain naturals.  A computation is a list of instructions in
the caller-supplied traversal order together with predecessor and successor
enumeration functions.  Machine words of the bit vector are naturals kept
below 2 ^ 64 by construction.
-/

namespace HloReachability

/-- Number of bits per word of the bit vector (BitVector::kBits = 64). -/
def kBits : Nat := 64

/-- Shallow embedding of HloReachabilityMap::BitVector: a size and a list of
64-bit words (hlo_reachability.h lines 162-205). -/
structure BitVector where
  size : Nat
  vector : List Nat
deriving Repr, DecidableEq

/-- BitVector(size_t size): size_(size), vector_((size + kBits - 1) / kBits, 0)
(hlo_reachability.h lines 165-166). -/
def BitVector.mkOfSize (size : Nat) : BitVector :=
  ⟨size, List.replicate ((size + kBits - 1) / kBits) 0⟩

/-- The DCHECK guard of BitVector::Get and BitVector::Set
(index >= 0 && index < size_); index >= 0 is automatic for naturals. -/
def BitVector.boundsOK (bv : BitVector) (index : Nat) : Prop :=
  index < bv.size

/-- BitVector::Get: vector_[index / kBits] & (1ull << (index % kBits)),
converted to bool (hlo_reachability.h lines 169-172).  Reading out of range
is undefined behaviour in the source; the model reads 0 there, which the
bounds theorems show is never exercised under the DCHECK precondition. -/
def BitVector.Get (bv : BitVector) (index : Nat) : Bool :=
  decide ((bv.vector.getD (index / kBits) 0) &&& (1 <<< (index % kBits)) ≠ 0)

/-- BitVector::Set: vector_[index / kBits] |= 1ull << (index % kBits)
(hlo_reachability.h lines 175-178). -/
def BitVector.Set (bv : BitVector) (index : Nat) : BitVector :=
  ⟨bv.size, bv.vector.set (index / kBits)
      ((bv.vector.getD (index / kBits) 0) ||| (1 <<< (index % kBits)))⟩

/-- BitVector::OrWith: for i in [0, vector_.size()): vector_[i] |=
other.vector_[i] (hlo_reachability.h lines 181-185).  The loop runs over the
indices of this vector; the model reads 0 past the end of the other vector,
which the bounds theorem shows is never exercised when sizes agree. -/
def BitVector.OrWith (bv other : BitVector) : BitVector :=
  ⟨bv.size, (List.range bv.vector.length).map
      (fun i => bv.vector.getD i 0 ||| other.vector.getD i 0)⟩

/-- BitVector::SetToZero (hlo_reachability.h line 188). -/
def BitVector.SetToZero (bv : BitVector) : BitVector :=
  ⟨bv.size, List.replicate bv.vector.length 0⟩

/-- BitVector::operator== compares the word vectors only
(hlo_reachability.h lines 190-192). -/
def BitVector.eqVec (a b : BitVector) : Bool :=
  a.vector == b.vector

/-- Shallow embedding of HloReachabilityMap's state (hlo_reachability.h lines
237-250): size_, the identity-to-index map indices_ (as an association list),
the rows bit_vectors_, and the scratch row tmp_bit_vector_. -/
structure ReachMap where
  size : Nat
  indices : List (Nat × Nat)
  bit_vectors : List BitVector
  tmp_bit_vector : BitVector
deriving Repr, DecidableEq

/-- Modelled from the spec: the HloReachabilityMap constructor (defined in the
missing hlo_reachability.cc; declared at hlo_reachability.h lines 62-63, and
by spec.md section 4.2 and the header comment at lines 60-61) assigns dense
indices 0..n-1 in insertion order and creates one zeroed row of size n per
instruction; the scratch row starts default-constructed (empty). -/
def mkMap (instructions : List Nat) : ReachMap :=
  { size := instructions.length
  , indices := instructions.zip (List.range instructions.length)
  , bit_vectors :=
      List.replicate instructions.length (BitVector.mkOfSize instructions.length)
  , tmp_bit_vector := ⟨0, []⟩ }

/-- GetIndex / GetIndexInternal: lookup of the identity key in indices_
(hlo_reachability.h lines 108-112 and 233-235); FindOrDie aborts on a missing
key, modelled by the Option result. -/
def ReachMap.GetIndex (m : ReachMap) (a : Nat) : Option Nat :=
  m.indices.lookup a

/-- Total variant of GetIndex used to state theorems: a missing key (on which
FindOrDie would abort) is mapped to the out-of-range sentinel size_, whose row
reads as all-zero.  Every theorem below applies it to present keys only. -/
def ReachMap.idxOf (m : ReachMap) (a : Nat) : Nat :=
  (m.indices.lookup a).getD m.size

/-- GetBitVector(Index): bit_vectors_[index.v] (hlo_reachability.h lines
215-218), with an empty bit vector as the out-of-range model value. -/
def ReachMap.row (m : ReachMap) (i : Nat) : BitVector :=
  m.bit_vectors.getD i ⟨0, []⟩

/-- IsReachable(a, b) = GetBitVector(b).Get(a.v) (hlo_reachability.h lines
133-136): true iff b's row holds the bit of a's index. -/
def ReachMap.IsReachable (m : ReachMap) (a b : Nat) : Bool :=
  (m.row (m.idxOf b)).Get (m.idxOf a)

/-- IsConnected(a, b) = IsReachable(a, b) || IsReachable(b, a)
(hlo_reachability.h lines 145-147). -/
def ReachMap.IsConnected (m : ReachMap) (a b : Nat) : Bool :=
  m.IsReachable a b || m.IsReachable b a

/-- IsPresent(a) = indices_.contains(GetKey(a)) (hlo_reachability.h lines
150-152). -/
def ReachMap.IsPresent (m : ReachMap) (a : Nat) : Bool :=
  (m.indices.lookup a).isSome

/-- SetReachable(a, b): GetBitVector(b).Set(a.v); sets one bit of b's row
(hlo_reachability.h lines 120-123 and spec.md section 4.3, raw edge
assembly). -/
def ReachMap.SetReachable (m : ReachMap) (a b : Nat) : ReachMap :=
  { m with bit_vectors :=
      m.bit_vectors.set (m.idxOf b) ((m.row (m.idxOf b)).Set (m.idxOf a)) }

/-- Modelled from the spec: the new row computed by
SetReachabilityToUnionHelper (missing hlo_reachability.cc; spec.md section
4.3, union assignment): written into a scratch row of the matrix size, the OR
of the rows of the inputs, with the target's own bit set afterwards. -/
def ReachMap.unionRow (m : ReachMap) (inputs : List Nat) (idx : Nat) : BitVector :=
  (inputs.foldl (fun acc i => acc.OrWith (m.row (m.idxOf i)))
      (BitVector.mkOfSize m.size)).Set idx

/-- Modelled from the spec: FastSetReachabilityToUnion (missing
hlo_reachability.cc; declared at hlo_reachability.h lines 100-106; spec.md
section 4.3): overwrite the row of the instruction with the recomputed union
row, without comparing against the previous row. -/
def ReachMap.FastSetReachabilityToUnion (m : ReachMap) (inputs : List Nat)
    (node : Nat) : ReachMap :=
  { m with bit_vectors :=
      m.bit_vectors.set (m.idxOf node) (m.unionRow inputs (m.idxOf node)) }

/-- Modelled from the spec: SetReachabilityToUnion (missing
hlo_reachability.cc; declared at hlo_reachability.h lines 96-97; spec.md
section 4.3): recompute the row into a scratch buffer, overwrite the row of
the instruction, and report whether the new row differs word-wise
(BitVector::operator!=) from the previous one. -/
def ReachMap.SetReachabilityToUnion (m : ReachMap) (inputs : List Nat)
    (node : Nat) : ReachMap × Bool :=
  let oldRow := m.row (m.idxOf node)
  let newRow := m.unionRow inputs (m.idxOf node)
  ({ m with bit_vectors := m.bit_vectors.set (m.idxOf node) newRow
          , tmp_bit_vector := oldRow },
   !(newRow.eqVec oldRow))

/-- Modelled from the spec: Replace (missing hlo_reachability.cc; declared at
hlo_reachability.h lines 156-157; spec.md section 4.3, identity substitution):
rebind the index currently bound to the identity of original to the identity
of replacement, removing the binding of original; no row is touched. -/
def ReachMap.Replace (m : ReachMap) (original replacement : Nat) : ReachMap :=
  { m with indices :=
      (replacement, m.idxOf original) ::
        m.indices.filter (fun kv => kv.1 != original && kv.1 != replacement) }

/-- The external computation graph consumed by the map: instructions in the
caller-supplied traversal order, per-instruction predecessors (operands plus
control predecessors) and successors (users plus control successors).
See spec.md sections 2 and 6. -/
structure Computation where
  order : List Nat
  preds : Nat → List Nat
  succs : Nat → List Nat

/-- Modelled from the spec: Build (missing hlo_reachability.cc; declared at
hlo_reachability.h lines 71-72; spec.md section 4.3, full closure build): one
linear pass over the instructions in the supplied order, setting each row to
the union of the rows of its predecessors via the fast union overwrite. -/
def Build (g : Computation) : ReachMap :=
  g.order.foldl (fun m x => m.FastSetReachabilityToUnion (g.preds x) x)
    (mkMap g.order)

/-- Modelled from the spec: BuildWithRestrictions (missing
hlo_reachability.cc; declared at hlo_reachability.h lines 80-84; spec.md
section 4.3, restricted-path build): the same linear sweep as Build, with the
predecessor enumeration replaced by the caller-supplied filtered one. -/
def BuildWithRestrictions (g : Computation) (add_dependencies : Nat → List Nat) :
    ReachMap :=
  Build { g with preds := add_dependencies }

/-- Modelled from the spec: one worklist step of
UpdateReachabilityThroughInstruction (missing hlo_reachability.cc; declared at
hlo_reachability.h line 127; spec.md section 4.3, incremental update): pop the
front instruction, recompute its row from its current predecessors, and if the
row changed push its immediate successors. -/
def updateStep (g : Computation) : List Nat × ReachMap → List Nat × ReachMap
  | ([], m) => ([], m)
  | (x :: rest, m) =>
      let r := m.SetReachabilityToUnion (g.preds x) x
      if r.2 then (rest ++ g.succs x, r.1) else (rest, r.1)

/-- The worklist loop of UpdateReachabilityThroughInstruction, with explicit
fuel; once the worklist is empty the state is returned unchanged. -/
def updateLoop (g : Computation) : Nat → List Nat × ReachMap → List Nat × ReachMap
  | 0, s => s
  | Nat.succ k, s =>
      match s.1 with
      | [] => s
      | _ :: _ => updateLoop g k (updateStep g s)

/-- Modelled from the spec: UpdateReachabilityThroughInstruction (missing
hlo_reachability.cc; spec.md section 4.3, incremental update): run the
worklist loop starting from the instruction whose predecessor set changed.
The fuel argument makes the loop structurally recursive; the termination
theorem shows some fuel always empties the worklist. -/
def UpdateReachabilityThroughInstruction (g : Computation) (m : ReachMap)
    (node : Nat) (fuel : Nat) : List Nat × ReachMap :=
  updateLoop g fuel ([node], m)

/-- One edge of the dependency graph: p is a direct predecessor (operand or
control predecessor) of c. -/
def edgeStep (g : Computation) (p c : Nat) : Prop :=
  p ∈ g.preds c

instance (g : Computation) (p c : Nat) : Decidable (edgeStep g p c) := by
  unfold edgeStep; infer_instance

/-- The reference transitive closure: there is a directed producer-to-consumer
path from a to b in the dependency graph (spec.md sections 3 and 8). -/
def reaches (g : Computation) (a b : Nat) : Prop :=
  Relation.ReflTransGen (edgeStep g) a b

/-- Well-formedness of a computation handed to the builder: instructions are
distinct, predecessors are instructions, and the supplied traversal order is a
true topological order of the combined data and control graph (producers
strictly before consumers), spec.md section 4.3. -/
structure WFGraph (g : Computation) : Prop where
  nodup : g.order.Nodup
  predsWF : ∀ x ∈ g.order, ∀ p ∈ g.preds x, p ∈ g.order
  topo : ∀ x ∈ g.order, ∀ p ∈ g.preds x, g.order.indexOf p < g.order.indexOf x

/-- Agreement of the successor enumeration with the predecessor enumeration:
successors are instructions, every successor is a consumer, and every consumer
is listed as a successor (spec.md section 6). -/
structure SuccsOK (g : Computation) : Prop where
  mem : ∀ x ∈ g.order, ∀ y ∈ g.succs x, y ∈ g.order
  sound : ∀ x ∈ g.order, ∀ y ∈ g.succs x, x ∈ g.preds y
  complete : ∀ x ∈ g.order, ∀ y ∈ g.order, x ∈ g.preds y → y ∈ g.succs x

/-- Structural well-formedness of a matrix over n instructions: n rows, each
of size n with the word count fixed by the constructor, and every word below
2 ^ 64. -/
structure WFMap (n : Nat) (m : ReachMap) : Prop where
  size_eq : m.size = n
  len_bv : m.bit_vectors.length = n
  row_size : ∀ bv ∈ m.bit_vectors, bv.size = n
  row_len : ∀ bv ∈ m.bit_vectors, bv.vector.length = (n + kBits - 1) / kBits
  row_word : ∀ bv ∈ m.bit_vectors, ∀ w ∈ bv.vector, w < 2 ^ kBits

/-- The indices of a matrix over the instruction list l are exactly the dense
insertion-order assignment produced by the constructor; Build and the union
and update operations never touch it. -/
def stdIndices (l : List Nat) (m : ReachMap) : Prop :=
  m.indices = l.zip (List.range l.length) ∧ m.size = l.length

/-! Bit-level lemmas about the BitVector operations. -/

theorem getD_map_range (n i d : Nat) (f : Nat → Nat) :
    ((List.range n).map f).getD i d = if i < n then f i else d := by
  rw [List.getD_eq_getElem?_getD]
  by_cases h : i < n
  · simp [List.getElem?_map, List.getElem?_range, h]
  · rw [List.getElem?_eq_none (by simpa using Nat.le_of_not_lt h)]
    simp [h]

theorem getD_replicate_nat (n a i d : Nat) :
    (List.replicate n a).getD i d = if i < n then a else d := by
  rw [List.getD_eq_getElem?_getD]
  by_cases h : i < n
  · simp [List.getElem?_replicate, h]
  · simp [List.getElem?_replicate, h]

theorem getD_set_self (l : List Nat) (i a d : Nat) (h : i < l.length) :
    (l.set i a).getD i d = a := by
  rw [List.getD_eq_getElem?_getD, List.getElem?_set_self (by simpa using h)]
  rfl

theorem getD_set_ne (l : List Nat) (i j a d : Nat) (h : i ≠ j) :
    (l.set i a).getD j d = l.getD j d := by
  rw [List.getD_eq_getElem?_getD, List.getElem?_set_ne h, ← List.getD_eq_getElem?_getD]

theorem getD_mem_of_lt (l : List Nat) (i d : Nat) (h : i < l.length) : l.getD i d ∈ l := by
  rw [List.getD_eq_getElem?_getD, List.getElem?_eq_getElem h, Option.getD_some]
  exact List.getElem_mem h

theorem BitVector.get_eq_testBit (bv : BitVector) (i : Nat) :
    bv.Get i = (bv.vector.getD (i / kBits) 0).testBit (i % kBits) := by
  unfold BitVector.Get
  rw [Nat.one_shiftLeft, Nat.and_two_pow]
  have h2 : (2 : Nat) ^ (i % kBits) ≠ 0 := (Nat.pos_pow_of_pos _ (by norm_num)).ne'
  cases h : (bv.vector.getD (i / kBits) 0).testBit (i % kBits) <;> simp [h, h2]

theorem BitVector.get_congr (a b : BitVector) (h : a.vector = b.vector) (i : Nat) :
    a.Get i = b.Get i := by
  simp [BitVector.Get, h]

theorem BitVector.get_mkOfSize (n i : Nat) : (BitVector.mkOfSize n).Get i = false := by
  rw [BitVector.get_eq_testBit]
  unfold BitVector.mkOfSize
  simp only [getD_replicate_nat]
  split <;> simp

theorem BitVector.get_setToZero (bv : BitVector) (i : Nat) :
    (bv.SetToZero).Get i = false := by
  rw [BitVector.get_eq_testBit]
  unfold BitVector.SetToZero
  simp only [getD_replicate_nat]
  split <;> simp

theorem div_mod_eq_iff (i j : Nat) (h1 : i / kBits = j / kBits)
    (h2 : i % kBits = j % kBits) : i = j := by
  unfold kBits at h1 h2
  omega

theorem BitVector.get_set (bv : BitVector) (i j : Nat)
    (hj : j / kBits < bv.vector.length) :
    ((bv.Set j).Get i = true) ↔ (i = j ∨ bv.Get i = true) := by
  rw [BitVector.get_eq_testBit, BitVector.get_eq_testBit]
  unfold BitVector.Set
  simp only
  by_cases hd : i / kBits = j / kBits
  · rw [hd, getD_set_self _ _ _ _ hj, Nat.one_shiftLeft, Nat.testBit_lor]
    by_cases hm : i % kBits = j % kBits
    · have hij : i = j := div_mod_eq_iff i j hd hm
      simp [hij, Nat.testBit_two_pow_self]
    · have hij : i ≠ j := fun h => hm (by rw [h])
      rw [Nat.testBit_two_pow_of_ne (fun h => hm h.symm)]
      simp [hij]
  · have hij : i ≠ j := fun h => hd (by rw [h])
    rw [getD_set_ne _ _ _ _ _ (fun h => hd h.symm)]
    simp [hij]

theorem BitVector.get_orWith (a b : BitVector)
    (h : b.vector.length ≤ a.vector.length) (i : Nat) :
    (a.OrWith b).Get i = (a.Get i || b.Get i) := by
  rw [BitVector.get_eq_testBit, BitVector.get_eq_testBit, BitVector.get_eq_testBit]
  unfold BitVector.OrWith
  simp only [getD_map_range]
  by_cases hlt : i / kBits < a.vector.length
  · simp [hlt, Nat.testBit_lor]
  · have ha : a.vector[i / kBits]? = none := List.getElem?_eq_none (by omega)
    have hb : b.vector[i / kBits]? = none := List.getElem?_eq_none (by omega)
    simp [hlt, ha, hb, List.getD_eq_getElem?_getD]

theorem BitVector.length_set (bv : BitVector) (j : Nat) :
    (bv.Set j).vector.length = bv.vector.length := by
  unfold BitVector.Set; simp

theorem BitVector.length_orWith (a b : BitVector) :
    (a.OrWith b).vector.length = a.vector.length := by
  unfold BitVector.OrWith; simp

theorem BitVector.length_mkOfSize (n : Nat) :
    (BitVector.mkOfSize n).vector.length = (n + kBits - 1) / kBits := by
  unfold BitVector.mkOfSize; simp

theorem BitVector.size_set (bv : BitVector) (j : Nat) : (bv.Set j).size = bv.size := rfl

theorem BitVector.size_orWith (a b : BitVector) : (a.OrWith b).size = a.size := rfl

theorem BitVector.size_mkOfSize (n : Nat) : (BitVector.mkOfSize n).size = n := rfl

theorem BitVector.word_lt_set (bv : BitVector) (j : Nat)
    (h : ∀ w ∈ bv.vector, w < 2 ^ kBits) (hj : j % kBits < kBits) :
    ∀ w ∈ (bv.Set j).vector, w < 2 ^ kBits := by
  unfold BitVector.Set
  intro w hw
  simp only at hw
  rcases List.mem_or_eq_of_mem_set hw with h1 | h1
  · exact h w h1
  · subst h1
    apply Nat.or_lt_two_pow
    · by_cases hlt : j / kBits < bv.vector.length
      · exact h _ (HloReachability.getD_mem_of_lt _ _ _ hlt)
      · rw [List.getD_eq_getElem?_getD, List.getElem?_eq_none (by omega)]
        exact Nat.pos_pow_of_pos _ (by norm_num)
    · rw [Nat.one_shiftLeft]
      exact Nat.pow_lt_pow_right (by norm_num) hj

theorem BitVector.word_lt_orWith (a b : BitVector)
    (ha : ∀ w ∈ a.vector, w < 2 ^ kBits) (hb : ∀ w ∈ b.vector, w < 2 ^ kBits) :
    ∀ w ∈ (a.OrWith b).vector, w < 2 ^ kBits := by
  unfold BitVector.OrWith
  intro w hw
  simp only [List.mem_map, List.mem_range] at hw
  obtain ⟨i, _, rfl⟩ := hw
  apply Nat.or_lt_two_pow
  · by_cases hlt : i < a.vector.length
    · exact ha _ (HloReachability.getD_mem_of_lt _ _ _ hlt)
    · rw [List.getD_eq_getElem?_getD, List.getElem?_eq_none (by omega)]
      exact Nat.pos_pow_of_pos _ (by norm_num)
  · by_cases hlt : i < b.vector.length
    · exact hb _ (HloReachability.getD_mem_of_lt _ _ _ hlt)
    · rw [List.getD_eq_getElem?_getD, List.getElem?_eq_none (by omega)]
      exact Nat.pos_pow_of_pos _ (by norm_num)

theorem BitVector.word_lt_mkOfSize (n : Nat) :
    ∀ w ∈ (BitVector.mkOfSize n).vector, w < 2 ^ kBits := by
  unfold BitVector.mkOfSize
  intro w hw
  simp only [List.mem_replicate] at hw
  rw [hw.2]
  exact Nat.pos_pow_of_pos _ (by norm_num)

theorem BitVector.vector_eq_of_get (a b : BitVector)
    (hlen : a.vector.length = b.vector.length)
    (ha : ∀ w ∈ a.vector, w < 2 ^ kBits) (hb : ∀ w ∈ b.vector, w < 2 ^ kBits)
    (h : ∀ i, a.Get i = b.Get i) : a.vector = b.vector := by
  apply List.ext_getElem hlen
  intro w hw hw'
  apply Nat.eq_of_testBit_eq
  intro k
  by_cases hk : k < kBits
  · have := h (w * kBits + k)
    rw [BitVector.get_eq_testBit, BitVector.get_eq_testBit] at this
    have hdiv : (w * kBits + k) / kBits = w := by
      unfold kBits at *; omega
    have hmod : (w * kBits + k) % kBits = k := by
      unfold kBits at *; omega
    rw [hdiv, hmod] at this
    rw [List.getD_eq_getElem?_getD, List.getD_eq_getElem?_getD] at this
    simp only [List.getElem?_eq_getElem hw, List.getElem?_eq_getElem hw',
      Option.getD_some] at this
    exact this
  · have hka : a.vector[w].testBit k = false :=
      Nat.testBit_lt_two_pow (lt_of_lt_of_le (ha _ (List.getElem_mem hw))
        (Nat.pow_le_pow_right (by norm_num) (by omega)))
    have hkb : b.vector[w].testBit k = false :=
      Nat.testBit_lt_two_pow (lt_of_lt_of_le (hb _ (List.getElem_mem hw'))
        (Nat.pow_le_pow_right (by norm_num) (by omega)))
    rw [hka, hkb]

/-! Lemmas about the dense index assignment and the rows of a matrix. -/

theorem getD_set_self_gen {α : Type} (l : List α) (i : Nat) (a d : α)
    (h : i < l.length) : (l.set i a).getD i d = a := by
  rw [List.getD_eq_getElem?_getD, List.getElem?_set_self (by simpa using h),
    Option.getD_some]

theorem getD_set_ne_gen {α : Type} (l : List α) (i j : Nat) (a d : α)
    (h : i ≠ j) : (l.set i a).getD j d = l.getD j d := by
  rw [List.getD_eq_getElem?_getD, List.getElem?_set_ne h, ← List.getD_eq_getElem?_getD]

theorem getD_replicate_gen {α : Type} (n : Nat) (a d : α) (i : Nat) :
    (List.replicate n a).getD i d = if i < n then a else d := by
  rw [List.getD_eq_getElem?_getD]
  by_cases h : i < n
  · simp [List.getElem?_replicate, h]
  · simp [List.getElem?_replicate, h]

theorem getD_mem_or {α : Type} (l : List α) (i : Nat) (d : α) :
    l.getD i d ∈ l ∨ l.getD i d = d := by
  by_cases h : i < l.length
  · left
    rw [List.getD_eq_getElem?_getD, List.getElem?_eq_getElem h, Option.getD_some]
    exact List.getElem_mem h
  · right
    rw [List.getD_eq_getElem?_getD, List.getElem?_eq_none (by omega)]
    rfl

theorem lookup_zip_range_from (l : List Nat) (c a : Nat) :
    (l.zip (List.range' c l.length)).lookup a =
      if a ∈ l then some (c + l.indexOf a) else none := by
  induction l generalizing c with
  | nil => simp
  | cons b t ih =>
      rw [List.length_cons, List.range'_succ, List.zip_cons_cons]
      by_cases hab : a = b
      · subst hab
        simp [List.lookup, List.indexOf_cons_self]
      · have hba : (a == b) = false := beq_false_of_ne hab
        rw [List.lookup, hba]
        simp only [ih (c + 1)]
        by_cases hm : a ∈ t
        · rw [if_pos hm, if_pos (List.mem_cons_of_mem b hm),
            List.indexOf_cons_ne t (Ne.symm hab)]
          congr 1
          omega
        · rw [if_neg hm, if_neg (by simp [hab, hm])]

theorem lookup_zip_range (l : List Nat) (a : Nat) :
    (l.zip (List.range l.length)).lookup a =
      if a ∈ l then some (l.indexOf a) else none := by
  rw [List.range_eq_range', lookup_zip_range_from]
  simp

theorem idxOf_eq_indexOf (l : List Nat) (m : ReachMap) (h : stdIndices l m)
    (a : Nat) (ha : a ∈ l) : m.idxOf a = l.indexOf a := by
  unfold ReachMap.idxOf
  rw [h.1, lookup_zip_range, if_pos ha]
  rfl

theorem idxOf_lt (l : List Nat) (m : ReachMap) (h : stdIndices l m)
    (a : Nat) (ha : a ∈ l) : m.idxOf a < l.length := by
  rw [idxOf_eq_indexOf l m h a ha]
  exact List.indexOf_lt_length.mpr ha

theorem isPresent_iff (l : List Nat) (m : ReachMap) (h : stdIndices l m)
    (a : Nat) : m.IsPresent a = true ↔ a ∈ l := by
  unfold ReachMap.IsPresent
  rw [h.1, lookup_zip_range]
  by_cases ha : a ∈ l <;> simp [ha]

theorem indexOf_getD (l : List Nat) (a : Nat) (ha : a ∈ l) :
    l.getD (l.indexOf a) 0 = a := by
  have h := List.indexOf_lt_length.mpr ha
  rw [List.getD_eq_getElem?_getD, List.getElem?_eq_getElem h, Option.getD_some]
  exact List.getElem_indexOf h

theorem indexOf_inj_mem (l : List Nat) (a b : Nat)
    (ha : a ∈ l) (hb : b ∈ l) (h : l.indexOf a = l.indexOf b) : a = b :=
  (List.indexOf_inj ha hb).mp h

theorem getD_indexOf_self (l : List Nat) (hn : l.Nodup) (i : Nat)
    (hi : i < l.length) : l.indexOf (l.getD i 0) = i := by
  have hg : l.getD i 0 = l[i] := by
    rw [List.getD_eq_getElem?_getD, List.getElem?_eq_getElem hi, Option.getD_some]
  rw [hg]
  exact List.indexOf_getElem hn i hi

theorem row_length_le (n : Nat) (m : ReachMap) (hm : WFMap n m) (j : Nat) :
    (m.row j).vector.length ≤ (n + kBits - 1) / kBits := by
  unfold ReachMap.row
  rcases getD_mem_or m.bit_vectors j ⟨0, []⟩ with h | h
  · rw [hm.row_len _ h]
  · rw [h]
    simp

theorem row_props (n : Nat) (m : ReachMap) (hm : WFMap n m) (j : Nat)
    (hj : j < n) : (m.row j).size = n ∧
      (m.row j).vector.length = (n + kBits - 1) / kBits ∧
      ∀ w ∈ (m.row j).vector, w < 2 ^ kBits := by
  unfold ReachMap.row
  have hjl : j < m.bit_vectors.length := by rw [hm.len_bv]; exact hj
  have hmem : m.bit_vectors.getD j ⟨0, []⟩ ∈ m.bit_vectors := by
    rw [List.getD_eq_getElem?_getD, List.getElem?_eq_getElem hjl, Option.getD_some]
    exact List.getElem_mem hjl
  exact ⟨hm.row_size _ hmem, hm.row_len _ hmem, hm.row_word _ hmem⟩

theorem row_word_lt (n : Nat) (m : ReachMap) (hm : WFMap n m) (j : Nat) :
    ∀ w ∈ (m.row j).vector, w < 2 ^ kBits := by
  unfold ReachMap.row
  rcases getD_mem_or m.bit_vectors j ⟨0, []⟩ with h | h
  · exact hm.row_word _ h
  · rw [h]
    simp

/-! Characterization and structural properties of the recomputed union row. -/

theorem foldl_orWith_size (m : ReachMap) (inputs : List Nat) (acc : BitVector) :
    (inputs.foldl (fun acc i => acc.OrWith (m.row (m.idxOf i))) acc).size
      = acc.size := by
  induction inputs generalizing acc with
  | nil => rfl
  | cons p ps ih => rw [List.foldl_cons, ih, BitVector.size_orWith]

theorem foldl_orWith_length (m : ReachMap) (inputs : List Nat) (acc : BitVector) :
    (inputs.foldl (fun acc i => acc.OrWith (m.row (m.idxOf i))) acc).vector.length
      = acc.vector.length := by
  induction inputs generalizing acc with
  | nil => rfl
  | cons p ps ih => rw [List.foldl_cons, ih, BitVector.length_orWith]

theorem foldl_orWith_word (n : Nat) (m : ReachMap) (hm : WFMap n m)
    (inputs : List Nat) (acc : BitVector)
    (hacc : ∀ w ∈ acc.vector, w < 2 ^ kBits) :
    ∀ w ∈ (inputs.foldl (fun acc i => acc.OrWith (m.row (m.idxOf i))) acc).vector,
      w < 2 ^ kBits := by
  induction inputs generalizing acc with
  | nil => exact hacc
  | cons p ps ih =>
      rw [List.foldl_cons]
      exact ih _ (BitVector.word_lt_orWith _ _ hacc (row_word_lt n m hm _))

theorem get_foldl_orWith (n : Nat) (m : ReachMap) (hm : WFMap n m)
    (inputs : List Nat) (acc : BitVector)
    (hacc : acc.vector.length = (n + kBits - 1) / kBits) (i : Nat) :
    ((inputs.foldl (fun acc i => acc.OrWith (m.row (m.idxOf i))) acc).Get i = true)
      ↔ (acc.Get i = true ∨ ∃ p ∈ inputs, (m.row (m.idxOf p)).Get i = true) := by
  induction inputs generalizing acc with
  | nil => simp
  | cons p ps ih =>
      rw [List.foldl_cons,
        ih (acc.OrWith (m.row (m.idxOf p)))
          (by rw [BitVector.length_orWith]; exact hacc),
        BitVector.get_orWith _ _ (by rw [hacc]; exact row_length_le n m hm _)]
      simp only [List.mem_cons, Bool.or_eq_true]
      constructor
      · rintro ((h | h) | ⟨q, hq, h⟩)
        · exact Or.inl h
        · exact Or.inr ⟨p, Or.inl rfl, h⟩
        · exact Or.inr ⟨q, Or.inr hq, h⟩
      · rintro (h | ⟨q, (rfl | hq), h⟩)
        · exact Or.inl (Or.inl h)
        · exact Or.inl (Or.inr h)
        · exact Or.inr ⟨q, hq, h⟩

theorem get_unionRow (n : Nat) (m : ReachMap) (hm : WFMap n m)
    (inputs : List Nat) (idx : Nat) (hidx : idx < n) (i : Nat) :
    ((m.unionRow inputs idx).Get i = true)
      ↔ (i = idx ∨ ∃ p ∈ inputs, (m.row (m.idxOf p)).Get i = true) := by
  unfold ReachMap.unionRow
  rw [BitVector.get_set _ _ _
      (by
        rw [foldl_orWith_length, BitVector.length_mkOfSize, hm.size_eq]
        unfold kBits
        omega),
    get_foldl_orWith n m hm _ _ (by rw [BitVector.length_mkOfSize, hm.size_eq])]
  simp [BitVector.get_mkOfSize]

theorem unionRow_size (m : ReachMap) (inputs : List Nat) (idx : Nat) :
    (m.unionRow inputs idx).size = m.size := by
  unfold ReachMap.unionRow
  rw [BitVector.size_set, foldl_orWith_size, BitVector.size_mkOfSize]

theorem unionRow_length (n : Nat) (m : ReachMap) (hm : WFMap n m)
    (inputs : List Nat) (idx : Nat) :
    (m.unionRow inputs idx).vector.length = (n + kBits - 1) / kBits := by
  unfold ReachMap.unionRow
  rw [BitVector.length_set, foldl_orWith_length, BitVector.length_mkOfSize,
    hm.size_eq]

theorem unionRow_word (n : Nat) (m : ReachMap) (hm : WFMap n m)
    (inputs : List Nat) (idx : Nat) :
    ∀ w ∈ (m.unionRow inputs idx).vector, w < 2 ^ kBits := by
  unfold ReachMap.unionRow
  apply BitVector.word_lt_set
  · exact foldl_orWith_word n m hm _ _ (BitVector.word_lt_mkOfSize _)
  · exact Nat.mod_lt _ (by unfold kBits; omega)

theorem WFMap_set_row (n : Nat) (m : ReachMap) (hm : WFMap n m) (j : Nat)
    (v : BitVector) (hs : v.size = n)
    (hl : v.vector.length = (n + kBits - 1) / kBits)
    (hw : ∀ w ∈ v.vector, w < 2 ^ kBits) (t : BitVector) :
    WFMap n { m with bit_vectors := m.bit_vectors.set j v, tmp_bit_vector := t } := by
  refine ⟨hm.size_eq, ?_, ?_, ?_, ?_⟩
  · simp [hm.len_bv]
  · intro bv hbv
    rcases List.mem_or_eq_of_mem_set hbv with h | h
    · exact hm.row_size _ h
    · rw [h]; exact hs
  · intro bv hbv
    rcases List.mem_or_eq_of_mem_set hbv with h | h
    · exact hm.row_len _ h
    · rw [h]; exact hl
  · intro bv hbv
    rcases List.mem_or_eq_of_mem_set hbv with h | h
    · exact hm.row_word _ h
    · rw [h]; exact hw

theorem WFMap_mkMap (l : List Nat) : WFMap l.length (mkMap l) := by
  refine ⟨rfl, by simp [mkMap], ?_, ?_, ?_⟩
  · intro bv hbv
    rw [List.eq_of_mem_replicate hbv]
    rfl
  · intro bv hbv
    rw [List.eq_of_mem_replicate hbv]
    exact BitVector.length_mkOfSize _
  · intro bv hbv
    rw [List.eq_of_mem_replicate hbv]
    exact BitVector.word_lt_mkOfSize _

theorem stdIndices_mkMap (l : List Nat) : stdIndices l (mkMap l) := ⟨rfl, rfl⟩

/-! Effects of the union-overwrite operations on the state. -/

theorem BitVector.get_empty (i : Nat) : BitVector.Get ⟨0, []⟩ i = false := by
  rw [BitVector.get_eq_testBit]
  simp [List.getD]

theorem fast_indices (m : ReachMap) (inputs : List Nat) (node : Nat) :
    (m.FastSetReachabilityToUnion inputs node).indices = m.indices := rfl

theorem fast_size (m : ReachMap) (inputs : List Nat) (node : Nat) :
    (m.FastSetReachabilityToUnion inputs node).size = m.size := rfl

theorem fast_row_ne (m : ReachMap) (inputs : List Nat) (node : Nat) (j : Nat)
    (hj : j ≠ m.idxOf node) :
    (m.FastSetReachabilityToUnion inputs node).row j = m.row j := by
  unfold ReachMap.FastSetReachabilityToUnion ReachMap.row
  exact getD_set_ne_gen _ _ _ _ _ (fun h => hj h.symm)

theorem fast_row_self (m : ReachMap) (inputs : List Nat) (node : Nat)
    (h : m.idxOf node < m.bit_vectors.length) :
    (m.FastSetReachabilityToUnion inputs node).row (m.idxOf node)
      = m.unionRow inputs (m.idxOf node) := by
  unfold ReachMap.FastSetReachabilityToUnion ReachMap.row
  exact getD_set_self_gen _ _ _ _ h

theorem setU_fst (m : ReachMap) (inputs : List Nat) (node : Nat) :
    (m.SetReachabilityToUnion inputs node).1 =
      { m with
          bit_vectors :=
            m.bit_vectors.set (m.idxOf node) (m.unionRow inputs (m.idxOf node)),
          tmp_bit_vector := m.row (m.idxOf node) } := rfl

theorem setU_snd (m : ReachMap) (inputs : List Nat) (node : Nat) :
    (m.SetReachabilityToUnion inputs node).2 =
      !((m.unionRow inputs (m.idxOf node)).eqVec (m.row (m.idxOf node))) := rfl

theorem setU_row_ne (m : ReachMap) (inputs : List Nat) (node : Nat) (j : Nat)
    (hj : j ≠ m.idxOf node) :
    (m.SetReachabilityToUnion inputs node).1.row j = m.row j := by
  rw [setU_fst]
  unfold ReachMap.row
  exact getD_set_ne_gen _ _ _ _ _ (fun h => hj h.symm)

theorem setU_row_self (m : ReachMap) (inputs : List Nat) (node : Nat)
    (h : m.idxOf node < m.bit_vectors.length) :
    (m.SetReachabilityToUnion inputs node).1.row (m.idxOf node)
      = m.unionRow inputs (m.idxOf node) := by
  rw [setU_fst]
  unfold ReachMap.row
  exact getD_set_self_gen _ _ _ _ h

theorem WFMap_fast (n : Nat) (m : ReachMap) (hm : WFMap n m)
    (inputs : List Nat) (node : Nat) :
    WFMap n (m.FastSetReachabilityToUnion inputs node) := by
  have h := WFMap_set_row n m hm (m.idxOf node) (m.unionRow inputs (m.idxOf node))
    (by rw [unionRow_size, hm.size_eq]) (unionRow_length n m hm _ _)
    (unionRow_word n m hm _ _) m.tmp_bit_vector
  exact h

theorem WFMap_setU (n : Nat) (m : ReachMap) (hm : WFMap n m)
    (inputs : List Nat) (node : Nat) :
    WFMap n (m.SetReachabilityToUnion inputs node).1 := by
  rw [setU_fst]
  exact WFMap_set_row n m hm (m.idxOf node) (m.unionRow inputs (m.idxOf node))
    (by rw [unionRow_size, hm.size_eq]) (unionRow_length n m hm _ _)
    (unionRow_word n m hm _ _) _

theorem stdIndices_fast (l : List Nat) (m : ReachMap) (h : stdIndices l m)
    (inputs : List Nat) (node : Nat) :
    stdIndices l (m.FastSetReachabilityToUnion inputs node) := h

theorem stdIndices_setU (l : List Nat) (m : ReachMap) (h : stdIndices l m)
    (inputs : List Nat) (node : Nat) :
    stdIndices l (m.SetReachabilityToUnion inputs node).1 := h

/-! Correctness of the full-closure build. -/

/-- The closure equation: a reaches x iff a is x or a reaches a direct
predecessor of x. -/
theorem reaches_iff_step (g : Computation) (a x : Nat) :
    reaches g a x ↔ (a = x ∨ ∃ p ∈ g.preds x, reaches g a p) := by
  constructor
  · intro h
    rcases Relation.ReflTransGen.cases_tail h with h1 | ⟨c, hc, hstep⟩
    · exact Or.inl h1.symm
    · exact Or.inr ⟨c, hstep, hc⟩
  · rintro (rfl | ⟨p, hp, h⟩)
    · exact Relation.ReflTransGen.refl
    · exact h.tail hp

/-- The row of x holds, at each position i, exactly the fact that the i-th
instruction reaches x. -/
def builtRow (g : Computation) (m : ReachMap) (x : Nat) : Prop :=
  ∀ i, ((m.row (g.order.indexOf x)).Get i = true ↔
    (i < g.order.length ∧ reaches g (g.order.getD i 0) x))

/-- The row of x is still all zeros. -/
def zeroRow (g : Computation) (m : ReachMap) (x : Nat) : Prop :=
  ∀ i, (m.row (g.order.indexOf x)).Get i = false

theorem mem_left_of_indexOf_lt (L R : List Nat) (p : Nat)
    (hp : p ∈ L ++ R) (h : (L ++ R).indexOf p < L.length) : p ∈ L := by
  rcases List.mem_append.mp hp with h1 | h1
  · exact h1
  · by_cases h2 : p ∈ L
    · exact h2
    · rw [List.indexOf_append_of_not_mem h2] at h
      omega

theorem build_go (g : Computation) (hg : WFGraph g) :
    ∀ (R L : List Nat) (m : ReachMap), g.order = L ++ R →
      stdIndices g.order m → WFMap g.order.length m →
      (∀ x ∈ L, builtRow g m x) → (∀ x ∈ R, zeroRow g m x) →
      stdIndices g.order
          (R.foldl (fun m x => m.FastSetReachabilityToUnion (g.preds x) x) m) ∧
        WFMap g.order.length
          (R.foldl (fun m x => m.FastSetReachabilityToUnion (g.preds x) x) m) ∧
        ∀ x ∈ g.order, builtRow g
          (R.foldl (fun m x => m.FastSetReachabilityToUnion (g.preds x) x) m) x := by
  intro R
  induction R with
  | nil =>
      intro L m horder hstd hwf hbuilt _
      refine ⟨hstd, hwf, ?_⟩
      intro x hx
      apply hbuilt
      rw [horder, List.append_nil] at hx
      exact hx
  | cons x R' ih =>
      intro L m horder hstd hwf hbuilt hzero
      set n := g.order.length with hn
      have hxmem : x ∈ g.order := by
        rw [horder]
        exact List.mem_append.mpr (Or.inr (List.mem_cons_self x R'))
      have hnodup : g.order.Nodup := hg.nodup
      have hxnotL : x ∉ L := by
        intro hxL
        rw [horder] at hnodup
        rcases List.nodup_append.mp hnodup with ⟨_, _, hdisj⟩
        exact hdisj hxL (List.mem_cons_self x R')
      have hxnotR : x ∉ R' := by
        rw [horder] at hnodup
        rcases List.nodup_append.mp hnodup with ⟨_, h2, _⟩
        exact (List.nodup_cons.mp h2).1
      have hpx : g.order.indexOf x = L.length := by
        rw [horder, List.indexOf_append_of_not_mem hxnotL, List.indexOf_cons_self]
        omega
      have hidx : m.idxOf x = g.order.indexOf x := idxOf_eq_indexOf _ _ hstd x hxmem
      have hpxlt : g.order.indexOf x < n := List.indexOf_lt_length.mpr hxmem
      set m' := m.FastSetReachabilityToUnion (g.preds x) x with hm'
      have hstd' : stdIndices g.order m' := hstd
      have hwf' : WFMap n m' := WFMap_fast n m hwf _ _
      have hrow_ne : ∀ j, j ≠ g.order.indexOf x → m'.row j = m.row j := by
        intro j hj
        apply fast_row_ne
        rw [hidx]
        exact hj
      have hrow_self : m'.row (g.order.indexOf x)
          = m.unionRow (g.preds x) (g.order.indexOf x) := by
        rw [← hidx]
        apply fast_row_self
        rw [hwf.len_bv, hidx]
        exact hpxlt
      have hbuilt' : ∀ y ∈ L ++ [x], builtRow g m' y := by
        intro y hy
        rcases List.mem_append.mp hy with hyL | hyx
        · have hyx : y ≠ x := fun h => hxnotL (h ▸ hyL)
          have : g.order.indexOf y ≠ g.order.indexOf x := by
            intro h
            exact hyx (indexOf_inj_mem g.order y x
              (by rw [horder]; exact List.mem_append.mpr (Or.inl hyL)) hxmem h)
          intro i
          rw [hrow_ne _ this]
          exact hbuilt y hyL i
        · have hyx : y = x := by simpa using hyx
          subst hyx
          intro i
          rw [hrow_self, get_unionRow n m hwf _ _ hpxlt]
          constructor
          · rintro (rfl | ⟨p, hp, hget⟩)
            · refine ⟨hpxlt, ?_⟩
              rw [indexOf_getD g.order y hxmem]
              exact Relation.ReflTransGen.refl
            · have hpmem : p ∈ g.order := hg.predsWF y hxmem p hp
              have hplt : g.order.indexOf p < g.order.indexOf y := hg.topo y hxmem p hp
              have hpL : p ∈ L := by
                apply mem_left_of_indexOf_lt L (y :: R') p
                · rw [← horder]; exact hpmem
                · rw [← horder]; omega
              rw [idxOf_eq_indexOf _ _ hstd p hpmem] at hget
              have := (hbuilt p hpL i).mp hget
              exact ⟨this.1, this.2.tail hp⟩
          · rintro ⟨hi, hr⟩
            rcases (reaches_iff_step g _ y).mp hr with heq | ⟨p, hp, hrp⟩
            · left
              rw [← heq, getD_indexOf_self g.order hnodup i hi]
            · right
              refine ⟨p, hp, ?_⟩
              have hpmem : p ∈ g.order := hg.predsWF y hxmem p hp
              have hplt : g.order.indexOf p < g.order.indexOf y := hg.topo y hxmem p hp
              have hpL : p ∈ L := by
                apply mem_left_of_indexOf_lt L (y :: R') p
                · rw [← horder]; exact hpmem
                · rw [← horder]; omega
              rw [idxOf_eq_indexOf _ _ hstd p hpmem]
              exact (hbuilt p hpL i).mpr ⟨hi, hrp⟩
      have hzero' : ∀ y ∈ R', zeroRow g m' y := by
        intro y hyR
        have hyx : y ≠ x := fun h => hxnotR (h ▸ hyR)
        have : g.order.indexOf y ≠ g.order.indexOf x := by
          intro h
          exact hyx (indexOf_inj_mem g.order y x
            (by
              rw [horder]
              exact List.mem_append.mpr (Or.inr (List.mem_cons_of_mem x hyR)))
            hxmem h)
        intro i
        rw [hrow_ne _ this]
        exact hzero y (List.mem_cons_of_mem x hyR) i
      have horder' : g.order = (L ++ [x]) ++ R' := by
        rw [horder, List.append_assoc, List.singleton_append]
      rw [List.foldl_cons]
      exact ih (L ++ [x]) m' horder' hstd' hwf' hbuilt' hzero'

theorem zeroRow_mkMap (g : Computation) (x : Nat) : zeroRow g (mkMap g.order) x := by
  intro i
  unfold mkMap ReachMap.row
  simp only
  rw [getD_replicate_gen]
  split
  · exact BitVector.get_mkOfSize _ _
  · exact BitVector.get_empty _

theorem build_props (g : Computation) (hg : WFGraph g) :
    stdIndices g.order (Build g) ∧ WFMap g.order.length (Build g) ∧
      ∀ x ∈ g.order, builtRow g (Build g) x := by
  unfold Build
  exact build_go g hg g.order [] (mkMap g.order) rfl (stdIndices_mkMap _)
    (WFMap_mkMap _) (by intro x hx; cases hx) (fun x _ => zeroRow_mkMap g x)

/-- Helper: after Build, IsReachable answers exactly path existence. -/
theorem build_isReachable (g : Computation) (hg : WFGraph g) (a b : Nat)
    (ha : a ∈ g.order) (hb : b ∈ g.order) :
    ((Build g).IsReachable a b = true) ↔ reaches g a b := by
  obtain ⟨hstd, hwf, hbuilt⟩ := build_props g hg
  unfold ReachMap.IsReachable
  rw [idxOf_eq_indexOf _ _ hstd a ha, idxOf_eq_indexOf _ _ hstd b hb]
  rw [hbuilt b hb (g.order.indexOf a)]
  have h1 : g.order.indexOf a < g.order.length := List.indexOf_lt_length.mpr ha
  rw [indexOf_getD g.order a ha]
  simp [h1]

/-! Concrete example computation used by the witnesses: the scenario of
spec.md section 8, nodes a=1, b=2, c=3, d=4 with edges a to b, b to c,
a to d, listed in topological order. -/

def exG : Computation :=
  { order := [1, 2, 3, 4]
  , preds := fun x => if x = 2 then [1] else if x = 3 then [2] else
      if x = 4 then [1] else []
  , succs := fun x => if x = 1 then [2, 4] else if x = 2 then [3] else [] }

theorem exG_wf : WFGraph exG := ⟨by decide, by decide, by decide⟩

theorem mkMap_get_false (l : List Nat) (j i : Nat) :
    ((mkMap l).row j).Get i = false := by
  unfold mkMap ReachMap.row
  simp only
  rw [getD_replicate_gen]
  split
  · exact BitVector.get_mkOfSize _ _
  · exact BitVector.get_empty _

/-- C1: for a matrix produced by the full-closure Build over a computation
whose traversal order is a true topological order of the combined data and
control graph, IsReachable(a, b) holds for present nodes a, b exactly when
there is a directed producer-to-consumer path from a to b in the dependency
graph, i.e. the matrix agrees with the reference transitive closure on every
ordered pair. -/
theorem c1_build_full_closure (g : Computation) (hg : WFGraph g) (a b : Nat)
    (ha : a ∈ g.order) (hb : b ∈ g.order) :
    ((Build g).IsReachable a b = true) ↔ reaches g a b :=
  build_isReachable g hg a b ha hb

/-- Witness for C1 on the concrete example graph: node 1 reaches node 3. -/
theorem c1_build_full_closure_witness :
    (Build exG).IsReachable 1 3 = true ∧ reaches exG 1 3 :=
  ⟨by decide,
    (c1_build_full_closure exG exG_wf 1 3 (by decide) (by decide)).mp (by decide)⟩

/-- C9: the bounds assertion of BitVector::Get and BitVector::Set rejects
every index at or beyond the size (no silent truncation or wrap); under the
precondition index < size the assertion-failure branch is unreachable and the
accessed word index is in bounds; and for BitVector::OrWith, when the other
vector has the same size (hence the same word count), every word index of the
loop is in bounds for both vectors. -/
theorem c9_bitvector_bounds (n : Nat) (bv other : BitVector)
    (hbv : bv.size = n) (hlen : bv.vector.length = (n + kBits - 1) / kBits)
    (hother : other.size = bv.size)
    (holen : other.vector.length = (n + kBits - 1) / kBits) (i : Nat) :
    (n ≤ i → ¬ bv.boundsOK i) ∧
      (i < n → bv.boundsOK i ∧ i / kBits < bv.vector.length) ∧
      (∀ j ∈ List.range bv.vector.length,
        j < bv.vector.length ∧ j < other.vector.length) := by
  refine ⟨?_, ?_, ?_⟩
  · intro hni
    unfold BitVector.boundsOK
    omega
  · intro hin
    refine ⟨by unfold BitVector.boundsOK; omega, ?_⟩
    rw [hlen]
    unfold kBits
    omega
  · intro j hj
    rw [List.mem_range] at hj
    exact ⟨hj, by rw [holen, ← hlen]; exact hj⟩

/-- Witness for C9 on a concrete two-word bit vector of size 70: index 70 is
rejected by the bounds check, index 3 is accepted and lands in word 0. -/
theorem c9_bitvector_bounds_witness :
    (¬ (BitVector.mkOfSize 70).boundsOK 70) ∧
      ((BitVector.mkOfSize 70).boundsOK 3 ∧
        3 / kBits < (BitVector.mkOfSize 70).vector.length) :=
  ⟨(c9_bitvector_bounds 70 (BitVector.mkOfSize 70) (BitVector.mkOfSize 70)
      rfl rfl rfl rfl 70).1 (by decide),
   (c9_bitvector_bounds 70 (BitVector.mkOfSize 70) (BitVector.mkOfSize 70)
      rfl rfl rfl rfl 3).2.1 (by decide)⟩

/-- C10: immediately after the constructor over an instruction list, before
any build, set or union operation, IsReachable is false for every pair of
present instructions, including a node with itself, while IsPresent is
already true for every instruction of the list. -/
theorem c10_fresh_map (instructions : List Nat) (a b : Nat)
    (ha : a ∈ instructions) (hb : b ∈ instructions) :
    (mkMap instructions).IsReachable a b = false ∧
      (mkMap instructions).IsPresent a = true := by
  refine ⟨?_, (isPresent_iff instructions _ (stdIndices_mkMap _) a).mpr ha⟩
  unfold ReachMap.IsReachable
  exact mkMap_get_false _ _ _

/-- Witness for C10: a fresh two-instruction map has no self-reachability for
instruction 5 but reports it present. -/
theorem c10_fresh_map_witness :
    (mkMap [5, 7]).IsReachable 5 5 = false ∧ (mkMap [5, 7]).IsPresent 5 = true :=
  c10_fresh_map [5, 7] 5 5 (by decide) (by decide)

/-! Postconditions of SetReachabilityToUnion (claim C3) and the
no-change frame property of the update propagation (claim C4). -/

theorem setU_idxOf (m : ReachMap) (inputs : List Nat) (node a : Nat) :
    (m.SetReachabilityToUnion inputs node).1.idxOf a = m.idxOf a := rfl

theorem setU_isReachable (nodes : List Nat) (m : ReachMap)
    (hstd : stdIndices nodes m) (hwf : WFMap nodes.length m)
    (inputs : List Nat) (node : Nat) (hnode : node ∈ nodes) (x : Nat)
    (hx : x ∈ nodes) :
    ((m.SetReachabilityToUnion inputs node).1.IsReachable x node = true) ↔
      (x = node ∨ ∃ i ∈ inputs, m.IsReachable x i = true) := by
  have hpx : m.idxOf node < nodes.length := idxOf_lt _ _ hstd node hnode
  unfold ReachMap.IsReachable
  rw [setU_idxOf, setU_idxOf,
    setU_row_self m inputs node (by rw [hwf.len_bv]; exact hpx),
    get_unionRow nodes.length m hwf inputs (m.idxOf node) hpx]
  constructor
  · rintro (h | h)
    · left
      exact indexOf_inj_mem nodes x node hx hnode
        (by
          rw [← idxOf_eq_indexOf _ _ hstd x hx, ← idxOf_eq_indexOf _ _ hstd node hnode]
          exact h)
    · exact Or.inr h
  · rintro (rfl | h)
    · exact Or.inl rfl
    · exact Or.inr h

/-- C3: after SetReachabilityToUnion(inputs, node), a present node x other
than node reaches node exactly when it reached some input before the call;
node is reachable from itself; no row other than the row of node is modified;
and the boolean result is true exactly when the row of node changed. -/
theorem c3_set_reachability_to_union (nodes : List Nat) (m : ReachMap)
    (hstd : stdIndices nodes m) (hwf : WFMap nodes.length m)
    (inputs : List Nat) (node : Nat) (hnode : node ∈ nodes) :
    (∀ x ∈ nodes, x ≠ node →
        (((m.SetReachabilityToUnion inputs node).1.IsReachable x node = true) ↔
          ∃ i ∈ inputs, m.IsReachable x i = true)) ∧
      ((m.SetReachabilityToUnion inputs node).1.IsReachable node node = true) ∧
      (∀ j, j ≠ m.idxOf node →
        (m.SetReachabilityToUnion inputs node).1.row j = m.row j) ∧
      (((m.SetReachabilityToUnion inputs node).2 = true) ↔
        ((m.SetReachabilityToUnion inputs node).1.row (m.idxOf node)).vector
          ≠ (m.row (m.idxOf node)).vector) := by
  have hpx : m.idxOf node < nodes.length := idxOf_lt _ _ hstd node hnode
  refine ⟨?_, ?_, ?_, ?_⟩
  · intro x hx hxne
    rw [setU_isReachable nodes m hstd hwf inputs node hnode x hx]
    constructor
    · rintro (h | h)
      · exact absurd h hxne
      · exact h
    · exact Or.inr
  · rw [setU_isReachable nodes m hstd hwf inputs node hnode node hnode]
    exact Or.inl rfl
  · exact fun j hj => setU_row_ne m inputs node j hj
  · rw [setU_snd, setU_row_self m inputs node (by rw [hwf.len_bv]; exact hpx)]
    unfold BitVector.eqVec
    cases h : ((m.unionRow inputs (m.idxOf node)).vector == (m.row (m.idxOf node)).vector)
    · simp only [Bool.not_false]
      have := (beq_eq_false_iff_ne (a := (m.unionRow inputs (m.idxOf node)).vector)
        (b := (m.row (m.idxOf node)).vector)).mp h
      simp [this]
    · simp only [Bool.not_true]
      have := (beq_iff_eq (a := (m.unionRow inputs (m.idxOf node)).vector)
        (b := (m.row (m.idxOf node)).vector)).mp h
      simp [this]

/-- Witness for C3 on the example graph: after taking the union of the row of
node 2 into node 4, node 1 (which reached 2) reaches 4, and 4 reaches
itself. -/
theorem c3_set_reachability_to_union_witness :
    (((Build exG).SetReachabilityToUnion [2] 4).1.IsReachable 1 4 = true) ∧
      (((Build exG).SetReachabilityToUnion [2] 4).1.IsReachable 4 4 = true) :=
  have h := c3_set_reachability_to_union exG.order (Build exG)
    (build_props exG exG_wf).1 (build_props exG exG_wf).2.1 [2] 4 (by decide)
  ⟨(h.1 1 (by decide) (by decide)).mpr ⟨2, by decide, by decide⟩, h.2.1⟩

theorem set_getD_self {α : Type} (l : List α) (i : Nat) (d : α)
    (h : i < l.length) : l.set i (l.getD i d) = l := by
  apply List.ext_getElem (by simp)
  intro j hj hj'
  by_cases hij : i = j
  · subst hij
    rw [List.getElem_set_self hj, List.getD_eq_getElem?_getD,
      List.getElem?_eq_getElem h, Option.getD_some]
  · rw [List.getElem_set_ne hij]

theorem updateLoop_nil (g : Computation) (fuel : Nat) (m : ReachMap) :
    updateLoop g fuel ([], m) = ([], m) := by
  cases fuel <;> rfl

/-- C4: if recomputing the row of node from its current predecessors yields a
row word-for-word equal to the old one, the propagation stops immediately: the
whole update call leaves every row of the matrix bit-for-bit identical, and
the worklist is exhausted after the single recompute step. -/
theorem c4_early_termination (g : Computation) (m : ReachMap)
    (hstd : stdIndices g.order m) (hwf : WFMap g.order.length m)
    (node : Nat) (hnode : node ∈ g.order)
    (hEq : (m.unionRow (g.preds node) (m.idxOf node)).vector
      = (m.row (m.idxOf node)).vector) :
    ∀ fuel, ((UpdateReachabilityThroughInstruction g m node fuel).2.bit_vectors
        = m.bit_vectors) ∧
      (1 ≤ fuel → (UpdateReachabilityThroughInstruction g m node fuel).1 = []) := by
  have hpx : m.idxOf node < g.order.length := idxOf_lt _ _ hstd node hnode
  have hrow : m.unionRow (g.preds node) (m.idxOf node) = m.row (m.idxOf node) := by
    have hsz : (m.unionRow (g.preds node) (m.idxOf node)).size
        = (m.row (m.idxOf node)).size := by
      rw [unionRow_size, (row_props _ m hwf _ hpx).1, hwf.size_eq]
    cases hu : m.unionRow (g.preds node) (m.idxOf node)
    cases hr : m.row (m.idxOf node)
    rw [hu, hr] at hsz hEq
    simp only at hsz hEq
    rw [hsz, hEq]
  have hstep : updateStep g ([node], m) =
      ([], (m.SetReachabilityToUnion (g.preds node) node).1) := by
    unfold updateStep
    simp only
    rw [setU_snd, hrow]
    unfold BitVector.eqVec
    simp
  have hbits : (m.SetReachabilityToUnion (g.preds node) node).1.bit_vectors
      = m.bit_vectors := by
    rw [setU_fst]
    simp only
    rw [hrow]
    apply set_getD_self
    rw [hwf.len_bv]
    exact hpx
  intro fuel
  cases fuel with
  | zero => exact ⟨rfl, by omega⟩
  | succ k =>
      unfold UpdateReachabilityThroughInstruction
      rw [updateLoop, hstep, updateLoop_nil]
      exact ⟨hbits, fun _ => rfl⟩

/-- Witness for C4: on the example graph, recomputing the already-consistent
row of node 3 changes nothing, and the update call leaves the matrix intact
with an exhausted worklist. -/
theorem c4_early_termination_witness :
    ((UpdateReachabilityThroughInstruction exG (Build exG) 3 5).2.bit_vectors
        = (Build exG).bit_vectors) ∧
      (UpdateReachabilityThroughInstruction exG (Build exG) 3 5).1 = [] :=
  have h := c4_early_termination exG (Build exG) (build_props exG exG_wf).1
    (build_props exG exG_wf).2.1 3 (by decide) (by decide) 5
  ⟨h.1, h.2 (by omega)⟩

/-! Replace (claim C6). -/

theorem lookup_filter_keep (l : List (Nat × Nat)) (a o r : Nat)
    (hao : a ≠ o) (har : a ≠ r) :
    (l.filter (fun kv => kv.1 != o && kv.1 != r)).lookup a = l.lookup a := by
  induction l with
  | nil => rfl
  | cons kv t ih =>
      obtain ⟨k, v⟩ := kv
      by_cases hk : (k ≠ o ∧ k ≠ r)
      · rw [List.filter_cons_of_pos (by simp [hk.1, hk.2])]
        rw [List.lookup, List.lookup]
        cases hak : a == k
        · exact ih
        · rfl
      · rw [List.filter_cons_of_neg (by
            simp only [Bool.and_eq_true, bne_iff_ne]
            tauto)]
        have hak : (a == k) = false := by
          apply beq_false_of_ne
          intro h
          subst h
          tauto
        rw [ih, List.lookup, hak]

theorem lookup_filter_out (l : List (Nat × Nat)) (o r : Nat) :
    (l.filter (fun kv => kv.1 != o && kv.1 != r)).lookup o = none := by
  induction l with
  | nil => rfl
  | cons kv t ih =>
      obtain ⟨k, v⟩ := kv
      by_cases hk : (k ≠ o ∧ k ≠ r)
      · rw [List.filter_cons_of_pos (by simp [hk.1, hk.2])]
        rw [List.lookup, beq_false_of_ne (Ne.symm hk.1)]
        exact ih
      · rw [List.filter_cons_of_neg (by
            simp only [Bool.and_eq_true, bne_iff_ne]
            tauto)]
        exact ih

/-- C6: Replace(original, replacement) transfers the index of original to
replacement: reachability to and from replacement afterwards equals
reachability to and from original before, original is no longer present, and
every row of the matrix, including references to the transferred index inside
other rows, is unchanged. -/
theorem c6_replace (nodes : List Nat) (m : ReachMap)
    (hstd : stdIndices nodes m) (original replacement : Nat)
    (ho : original ∈ nodes) (hr : replacement ∉ nodes)
    (hne : original ≠ replacement) :
    (∀ A ∈ nodes, A ≠ original →
        (m.Replace original replacement).IsReachable A replacement
          = m.IsReachable A original) ∧
      (∀ C ∈ nodes, C ≠ original →
        (m.Replace original replacement).IsReachable replacement C
          = m.IsReachable original C) ∧
      ((m.Replace original replacement).IsPresent original = false) ∧
      ((m.Replace original replacement).bit_vectors = m.bit_vectors) := by
  have hlookup_r : (m.Replace original replacement).indices.lookup replacement
      = some (m.idxOf original) := by
    unfold ReachMap.Replace
    simp only
    rw [List.lookup, beq_self_eq_true]
  have hlookup_keep : ∀ A, A ≠ original → A ≠ replacement →
      (m.Replace original replacement).indices.lookup A = m.indices.lookup A := by
    intro A hao har
    unfold ReachMap.Replace
    simp only
    rw [List.lookup, beq_false_of_ne har]
    exact lookup_filter_keep m.indices A original replacement hao har
  have hidx_r : (m.Replace original replacement).idxOf replacement
      = m.idxOf original := by
    unfold ReachMap.idxOf
    rw [hlookup_r]
    rfl
  have hidx_keep : ∀ A, A ≠ original → A ≠ replacement →
      (m.Replace original replacement).idxOf A = m.idxOf A := by
    intro A hao har
    unfold ReachMap.idxOf
    rw [hlookup_keep A hao har]
    rfl
  have hrows : ∀ j, (m.Replace original replacement).row j = m.row j :=
    fun j => rfl
  refine ⟨?_, ?_, ?_, rfl⟩
  · intro A hA hao
    unfold ReachMap.IsReachable
    rw [hidx_r, hidx_keep A hao (fun h => hr (h ▸ hA)), hrows]
  · intro C hC hco
    unfold ReachMap.IsReachable
    rw [hidx_r, hidx_keep C hco (fun h => hr (h ▸ hC)), hrows]
  · unfold ReachMap.IsPresent ReachMap.Replace
    simp only
    rw [List.lookup, beq_false_of_ne hne, lookup_filter_out]
    rfl

/-- Witness for C6: replacing node 2 of the built example matrix by the fresh
identity 9 carries the fact that 1 reached 2 over to 9, and 2 is gone. -/
theorem c6_replace_witness :
    ((Build exG).Replace 2 9).IsReachable 1 9 = (Build exG).IsReachable 1 2 ∧
      ((Build exG).Replace 2 9).IsPresent 2 = false :=
  have h := c6_replace exG.order (Build exG) (build_props exG exG_wf).1 2 9
    (by decide) (by decide) (by decide)
  ⟨h.1 1 (by decide) (by decide), h.2.2.1⟩

/-! Self-reachability (claim C8). -/

theorem fold_fast_stdIndices (l : List Nat) (pr : Nat → List Nat) :
    ∀ (R : List Nat) (m : ReachMap), stdIndices l m →
      stdIndices l (R.foldl (fun m y => m.FastSetReachabilityToUnion (pr y) y) m) := by
  intro R
  induction R with
  | nil => intro m h; exact h
  | cons y R' ih =>
      intro m h
      rw [List.foldl_cons]
      exact ih _ h

theorem fold_fast_WFMap (n : Nat) (pr : Nat → List Nat) :
    ∀ (R : List Nat) (m : ReachMap), WFMap n m →
      WFMap n (R.foldl (fun m y => m.FastSetReachabilityToUnion (pr y) y) m) := by
  intro R
  induction R with
  | nil => intro m h; exact h
  | cons y R' ih =>
      intro m h
      rw [List.foldl_cons]
      exact ih _ (WFMap_fast n m h _ _)

theorem selfbit_fold (l : List Nat) (pr : Nat → List Nat) (hn : l.Nodup) :
    ∀ (R : List Nat) (m : ReachMap), (∀ y ∈ R, y ∈ l) →
      stdIndices l m → WFMap l.length m →
      (∀ x ∈ l, x ∉ R → ((m.row (l.indexOf x)).Get (l.indexOf x) = true)) →
      ∀ x ∈ l, (((R.foldl (fun m y => m.FastSetReachabilityToUnion (pr y) y) m).row
        (l.indexOf x)).Get (l.indexOf x) = true) := by
  intro R
  induction R with
  | nil =>
      intro m _ _ _ hself x hx
      exact hself x hx (by simp)
  | cons y R' ih =>
      intro m hR hstd hwf hself x hx
      rw [List.foldl_cons]
      have hy : y ∈ l := hR y (List.mem_cons_self y R')
      have hpy : m.idxOf y = l.indexOf y := idxOf_eq_indexOf l m hstd y hy
      have hpylt : l.indexOf y < l.length := List.indexOf_lt_length.mpr hy
      apply ih (m.FastSetReachabilityToUnion (pr y) y)
        (fun z hz => hR z (List.mem_cons_of_mem y hz)) hstd
        (WFMap_fast _ _ hwf _ _)
      · intro z hz hzR
        by_cases hzy : z = y
        · subst hzy
          rw [show l.indexOf z = m.idxOf z from hpy.symm,
            fast_row_self m _ _ (by rw [hwf.len_bv, hpy]; exact hpylt)]
          exact (get_unionRow l.length m hwf (pr z) (m.idxOf z)
            (by rw [hpy]; exact hpylt) (m.idxOf z)).mpr (Or.inl rfl)
        · rw [fast_row_ne m _ _ _ (by
            rw [hpy]
            intro h
            exact hzy (indexOf_inj_mem l z y hz hy h))]
          exact hself z hz (by simp [hzy, hzR])
      · exact hx

theorem build_self (g : Computation) (hn : g.order.Nodup) :
    ∀ x ∈ g.order, (Build g).IsReachable x x = true := by
  intro x hx
  have hstd : stdIndices g.order (Build g) :=
    fold_fast_stdIndices g.order g.preds g.order (mkMap g.order) (stdIndices_mkMap _)
  unfold ReachMap.IsReachable
  rw [idxOf_eq_indexOf _ _ hstd x hx]
  exact selfbit_fold g.order g.preds hn g.order (mkMap g.order) (fun y hy => hy)
    (stdIndices_mkMap _) (WFMap_mkMap _) (fun z hz hzn => absurd hz hzn) x hx

theorem selfbit_setU (nodes : List Nat) (m : ReachMap)
    (hstd : stdIndices nodes m) (hwf : WFMap nodes.length m)
    (hself : ∀ x ∈ nodes, m.IsReachable x x = true)
    (inputs : List Nat) (y : Nat) (hy : y ∈ nodes) :
    ∀ x ∈ nodes, (m.SetReachabilityToUnion inputs y).1.IsReachable x x = true := by
  intro x hx
  by_cases hxy : x = y
  · subst hxy
    exact (setU_isReachable nodes m hstd hwf inputs x hy x hx).mpr (Or.inl rfl)
  · unfold ReachMap.IsReachable
    rw [setU_idxOf, setU_row_ne m inputs y (m.idxOf x) (by
      rw [idxOf_eq_indexOf _ _ hstd x hx, idxOf_eq_indexOf _ _ hstd y hy]
      intro h
      exact hxy (indexOf_inj_mem nodes x y hx hy h))]
    exact hself x hx

theorem selfbit_updateLoop (g : Computation)
    (hsucc : ∀ y ∈ g.order, ∀ z ∈ g.succs y, z ∈ g.order) :
    ∀ (fuel : Nat) (W : List Nat) (m : ReachMap), (∀ y ∈ W, y ∈ g.order) →
      stdIndices g.order m → WFMap g.order.length m →
      (∀ x ∈ g.order, m.IsReachable x x = true) →
      ∀ x ∈ g.order, ((updateLoop g fuel (W, m)).2.IsReachable x x = true) := by
  intro fuel
  induction fuel with
  | zero =>
      intro W m _ _ _ hself x hx
      exact hself x hx
  | succ k ih =>
      intro W m hW hstd hwf hself x hx
      match W with
      | [] =>
          rw [updateLoop_nil]
          exact hself x hx
      | y :: rest =>
          have hy : y ∈ g.order := hW y (List.mem_cons_self y rest)
          have hstep2 : (updateStep g (y :: rest, m)).2
              = (m.SetReachabilityToUnion (g.preds y) y).1 := by
            unfold updateStep
            simp only
            split <;> rfl
          have hstep1 : ∀ z ∈ (updateStep g (y :: rest, m)).1, z ∈ g.order := by
            unfold updateStep
            simp only
            split
            · intro z hz
              rcases List.mem_append.mp hz with h | h
              · exact hW z (List.mem_cons_of_mem y h)
              · exact hsucc y hy z h
            · intro z hz
              exact hW z (List.mem_cons_of_mem y hz)
          rw [updateLoop]
          exact ih (updateStep g (y :: rest, m)).1 (updateStep g (y :: rest, m)).2
            hstep1 (by rw [hstep2]; exact hstd)
            (by rw [hstep2]; exact WFMap_setU _ m hwf _ _)
            (by rw [hstep2]; exact selfbit_setU g.order m hstd hwf hself _ y hy)
            x hx

/-- C8: every node present after a build, full or restricted, reaches itself,
and the self-bit is never cleared afterwards: every union overwrite and every
update-propagation call leaves IsReachable(x, x) true for all present x. -/
theorem c8_self_bit :
    (∀ g : Computation, g.order.Nodup → ∀ x ∈ g.order,
        (Build g).IsReachable x x = true) ∧
      (∀ (g : Computation) (f : Nat → List Nat), g.order.Nodup → ∀ x ∈ g.order,
        (BuildWithRestrictions g f).IsReachable x x = true) ∧
      (∀ (nodes : List Nat) (m : ReachMap), stdIndices nodes m →
        WFMap nodes.length m → (∀ x ∈ nodes, m.IsReachable x x = true) →
        ∀ (inputs : List Nat) (y : Nat), y ∈ nodes →
        ∀ x ∈ nodes, (m.SetReachabilityToUnion inputs y).1.IsReachable x x = true) ∧
      (∀ (g : Computation) (m : ReachMap) (node fuel : Nat),
        (∀ y ∈ g.order, ∀ z ∈ g.succs y, z ∈ g.order) → node ∈ g.order →
        stdIndices g.order m → WFMap g.order.length m →
        (∀ x ∈ g.order, m.IsReachable x x = true) →
        ∀ x ∈ g.order,
          (UpdateReachabilityThroughInstruction g m node fuel).2.IsReachable x x
            = true) := by
  refine ⟨build_self, ?_, ?_, ?_⟩
  · intro g f hn x hx
    exact build_self { g with preds := f } hn x hx
  · intro nodes m hstd hwf hself inputs y hy x hx
    exact selfbit_setU nodes m hstd hwf hself inputs y hy x hx
  · intro g m node fuel hsucc hnode hstd hwf hself x hx
    exact selfbit_updateLoop g hsucc fuel [node] m
      (by
        intro z hz
        rw [List.mem_singleton] at hz
        rw [hz]
        exact hnode)
      hstd hwf hself x hx

/-- Witness for C8: self-reachability of node 4 after the full build of the
example graph, and after a further union into node 4. -/
theorem c8_self_bit_witness :
    (Build exG).IsReachable 4 4 = true ∧
      ((Build exG).SetReachabilityToUnion [2] 4).1.IsReachable 4 4 = true :=
  ⟨c8_self_bit.1 exG (by decide) 4 (by decide),
    c8_self_bit.2.2.1 exG.order (Build exG) (build_props exG exG_wf).1
      (build_props exG exG_wf).2.1
      (fun x hx => c8_self_bit.1 exG (by decide) x hx) [2] 4 (by decide) 4 (by decide)⟩

/-! Restricted build is a restriction of the full build (claim C7). -/

theorem WFGraph_restrict (g : Computation) (f : Nat → List Nat)
    (hg : WFGraph g) (hsub : ∀ x ∈ g.order, ∀ p ∈ f x, p ∈ g.preds x) :
    WFGraph { g with preds := f } := by
  refine ⟨hg.nodup, ?_, ?_⟩
  · intro x hx p hp
    exact hg.predsWF x hx p (hsub x hx p hp)
  · intro x hx p hp
    exact hg.topo x hx p (hsub x hx p hp)

theorem reaches_restrict (g : Computation) (f : Nat → List Nat)
    (hg : WFGraph g) (hsub : ∀ x ∈ g.order, ∀ p ∈ f x, p ∈ g.preds x)
    (a b : Nat) (h : reaches { g with preds := f } a b) :
    b ∈ g.order → reaches g a b := by
  induction h with
  | refl =>
      intro _
      exact Relation.ReflTransGen.refl
  | tail hac hstep ih =>
      rename_i c d
      intro hd
      have hcd : c ∈ g.preds d := hsub d hd c hstep
      have hcmem : c ∈ g.order := hg.predsWF d hd c hcd
      exact Relation.ReflTransGen.tail (ih hcmem) hcd

/-- The restricted-build predecessor filter used in the counterexample
direction of C7: it keeps the edge from 1 to 2 and drops all others. -/
def exRestr : Nat → List Nat := fun x => if x = 2 then [1] else []

/-- C7: reachability under a build whose predecessor enumeration is a
restriction of the true one implies reachability under the unrestricted Build
of the same computation, for every pair of nodes; and the converse fails on a
concrete graph: on the example graph with the filter that drops the edge from
2 to 3, the full build reaches 3 from 1 but the restricted build does not. -/
theorem c7_restricted_subset :
    (∀ (g : Computation) (f : Nat → List Nat), WFGraph g →
        (∀ x ∈ g.order, ∀ p ∈ f x, p ∈ g.preds x) →
        ∀ a b, a ∈ g.order → b ∈ g.order →
          (BuildWithRestrictions g f).IsReachable a b = true →
          (Build g).IsReachable a b = true) ∧
      (∃ (g : Computation) (f : Nat → List Nat) (a b : Nat),
        (∀ x ∈ g.order, ∀ p ∈ f x, p ∈ g.preds x) ∧
          (Build g).IsReachable a b = true ∧
          (BuildWithRestrictions g f).IsReachable a b = false) := by
  constructor
  · intro g f hg hsub a b ha hb h
    have hg' : WFGraph { g with preds := f } := WFGraph_restrict g f hg hsub
    have h1 : reaches { g with preds := f } a b :=
      (build_isReachable { g with preds := f } hg' a b ha hb).mp h
    exact (build_isReachable g hg a b ha hb).mpr
      (reaches_restrict g f hg hsub a b h1 hb)
  · exact ⟨exG, exRestr, 1, 3, by decide, by decide, by decide⟩

/-- Witness for C7: the implication applied on the example graph at the pair
(1, 2), which the restricted build does reach. -/
theorem c7_restricted_subset_witness : (Build exG).IsReachable 1 2 = true :=
  c7_restricted_subset.1 exG exRestr exG_wf (by decide) 1 2 (by decide) (by decide)
    (by decide)

/-! Termination of the update worklist on graphs with a topological order
(claims C5 and C2). -/

/-- Base of the worklist measure: one more than the largest successor-list
length over the instructions. -/
def wbase (g : Computation) : Nat :=
  ((g.order.map (fun x => (g.succs x).length)).foldr max 0) + 1

/-- Worklist measure: items of small topological rank weigh exponentially
more, so replacing an item by its (higher-rank) successors decreases it. -/
def wMeasure (g : Computation) (W : List Nat) : Nat :=
  (W.map (fun x => wbase g ^ (g.order.length - g.order.indexOf x))).sum

theorem le_foldr_max (l : List Nat) (a : Nat) (h : a ∈ l) :
    a ≤ l.foldr max 0 := by
  induction l with
  | nil => cases h
  | cons b t ih =>
      rw [List.foldr_cons]
      rcases List.mem_cons.mp h with rfl | h
      · exact le_max_left _ _
      · exact le_trans (ih h) (le_max_right _ _)

theorem succs_len_lt_wbase (g : Computation) (x : Nat) (hx : x ∈ g.order) :
    (g.succs x).length < wbase g := by
  unfold wbase
  have hmem : (g.succs x).length ∈ g.order.map (fun x => (g.succs x).length) :=
    List.mem_map_of_mem _ hx
  have := le_foldr_max _ _ hmem
  omega

theorem one_le_wbase (g : Computation) : 1 ≤ wbase g := by
  unfold wbase
  omega

theorem wMeasure_cons (g : Computation) (x : Nat) (W : List Nat) :
    wMeasure g (x :: W) =
      wbase g ^ (g.order.length - g.order.indexOf x) + wMeasure g W := by
  unfold wMeasure
  rw [List.map_cons, List.sum_cons]

theorem wMeasure_append (g : Computation) (V W : List Nat) :
    wMeasure g (V ++ W) = wMeasure g V + wMeasure g W := by
  unfold wMeasure
  rw [List.map_append, List.sum_append]

theorem wMeasure_succs_lt (g : Computation) (hg : WFGraph g) (hs : SuccsOK g)
    (x : Nat) (hx : x ∈ g.order) :
    wMeasure g (g.succs x) < wbase g ^ (g.order.length - g.order.indexOf x) := by
  have hxlt : g.order.indexOf x < g.order.length := List.indexOf_lt_length.mpr hx
  have hbound : ∀ t ∈ (g.succs x).map
      (fun y => wbase g ^ (g.order.length - g.order.indexOf y)),
      t ≤ wbase g ^ (g.order.length - g.order.indexOf x - 1) := by
    intro t ht
    rw [List.mem_map] at ht
    obtain ⟨y, hy, rfl⟩ := ht
    have hymem : y ∈ g.order := hs.mem x hx y hy
    have hpy : x ∈ g.preds y := hs.sound x hx y hy
    have hrank : g.order.indexOf x < g.order.indexOf y := hg.topo y hymem x hpy
    apply Nat.pow_le_pow_right (one_le_wbase g)
    omega
  have hsum : wMeasure g (g.succs x)
      ≤ (g.succs x).length * wbase g ^ (g.order.length - g.order.indexOf x - 1) := by
    unfold wMeasure
    calc ((g.succs x).map
        (fun y => wbase g ^ (g.order.length - g.order.indexOf y))).sum
        ≤ ((g.succs x).map
            (fun y => wbase g ^ (g.order.length - g.order.indexOf y))).length •
              wbase g ^ (g.order.length - g.order.indexOf x - 1) :=
          List.sum_le_card_nsmul _ _ hbound
      _ = (g.succs x).length * wbase g ^ (g.order.length - g.order.indexOf x - 1) := by
          rw [List.length_map, smul_eq_mul]
  have hlen : (g.succs x).length < wbase g := succs_len_lt_wbase g x hx
  have hpow : wbase g ^ (g.order.length - g.order.indexOf x) =
      wbase g * wbase g ^ (g.order.length - g.order.indexOf x - 1) := by
    conv_lhs => rw [show g.order.length - g.order.indexOf x
      = (g.order.length - g.order.indexOf x - 1) + 1 from by omega]
    rw [pow_succ, Nat.mul_comm]
  calc wMeasure g (g.succs x)
      ≤ (g.succs x).length * wbase g ^ (g.order.length - g.order.indexOf x - 1) :=
        hsum
    _ < wbase g * wbase g ^ (g.order.length - g.order.indexOf x - 1) := by
        apply Nat.mul_lt_mul_of_lt_of_le hlen le_rfl
        exact Nat.pos_pow_of_pos _ (one_le_wbase g)
    _ = wbase g ^ (g.order.length - g.order.indexOf x) := hpow.symm

theorem wMeasure_step (g : Computation) (hg : WFGraph g) (hs : SuccsOK g)
    (x : Nat) (hx : x ∈ g.order) (rest : List Nat) (m : ReachMap) :
    wMeasure g ((updateStep g (x :: rest, m)).1) < wMeasure g (x :: rest) := by
  rw [wMeasure_cons]
  unfold updateStep
  simp only
  split
  · rw [wMeasure_append]
    have := wMeasure_succs_lt g hg hs x hx
    omega
  · have hpos : 0 < wbase g ^ (g.order.length - g.order.indexOf x) :=
      Nat.pos_pow_of_pos _ (one_le_wbase g)
    show wMeasure g rest <
      wbase g ^ (g.order.length - g.order.indexOf x) + wMeasure g rest
    omega

theorem updateStep_mem (g : Computation)
    (hsucc : ∀ y ∈ g.order, ∀ z ∈ g.succs y, z ∈ g.order)
    (x : Nat) (hx : x ∈ g.order) (rest : List Nat) (m : ReachMap)
    (hrest : ∀ y ∈ rest, y ∈ g.order) :
    ∀ y ∈ (updateStep g (x :: rest, m)).1, y ∈ g.order := by
  unfold updateStep
  simp only
  split
  · intro z hz
    rcases List.mem_append.mp hz with h | h
    · exact hrest z h
    · exact hsucc x hx z h
  · intro z hz
    exact hrest z hz

theorem updateLoop_empties (g : Computation) (hg : WFGraph g) (hs : SuccsOK g) :
    ∀ (N : Nat) (W : List Nat) (m : ReachMap), wMeasure g W ≤ N →
      (∀ y ∈ W, y ∈ g.order) → ∃ k, (updateLoop g k (W, m)).1 = [] := by
  intro N
  induction N using Nat.strong_induction_on with
  | _ N ih =>
      intro W m hmeas hW
      match W with
      | [] => exact ⟨0, rfl⟩
      | x :: rest =>
          have hx : x ∈ g.order := hW x (List.mem_cons_self x rest)
          have hdec := wMeasure_step g hg hs x hx rest m
          have hW' := updateStep_mem g hs.mem x hx rest m
            (fun y hy => hW y (List.mem_cons_of_mem x hy))
          obtain ⟨k, hk⟩ := ih (wMeasure g (updateStep g (x :: rest, m)).1)
            (by omega) (updateStep g (x :: rest, m)).1
            (updateStep g (x :: rest, m)).2 le_rfl hW'
          refine ⟨k + 1, ?_⟩
          rw [updateLoop]
          exact hk

/-! Claim C5: termination of UpdateReachabilityThroughInstruction. -/

/-- Three-node chain 1 to 2 to 3, in topological order, with the edge from
1 to 2 present. -/
def exChain : Computation :=
  { order := [1, 2, 3]
  , preds := fun x => if x = 2 then [1] else if x = 3 then [2] else []
  , succs := fun x => if x = 1 then [2] else if x = 2 then [3] else [] }

/-- The same chain after removing the edge from 1 to 2. -/
def exChainCut : Computation :=
  { order := [1, 2, 3]
  , preds := fun x => if x = 3 then [2] else []
  , succs := fun x => if x = 2 then [3] else [] }

/-- Counterexample to C5 as stated: rows do not only grow along the
propagation.  Build the closed chain, remove the edge from 1 to 2, and update
node 2: the recompute of node 2 clears bit 1 of its row, and the propagation
step at node 3 clears bit 1 of the row of 3 as well, observable as
IsReachable(1, 3) flipping from true to false. -/
theorem c5_counterexample :
    (Build exChain).IsReachable 1 3 = true ∧
      (UpdateReachabilityThroughInstruction exChainCut (Build exChain) 2 10).2.IsReachable
          1 3 = false ∧
      (UpdateReachabilityThroughInstruction exChainCut (Build exChain) 2 10).1 = [] := by
  refine ⟨by decide, by decide, by decide⟩

theorem update_terminates_helper (g : Computation) (hg : WFGraph g)
    (hs : SuccsOK g) (m : ReachMap) (node : Nat) (hnode : node ∈ g.order) :
    ∃ k, (UpdateReachabilityThroughInstruction g m node k).1 = [] := by
  obtain ⟨k, hk⟩ := updateLoop_empties g hg hs (wMeasure g [node]) [node] m le_rfl
    (by
      intro y hy
      rw [List.mem_singleton] at hy
      rw [hy]
      exact hnode)
  exact ⟨k, hk⟩

/-- C5 (amended): UpdateReachabilityThroughInstruction(node) terminates for
every well-formed input whose traversal order is topological and whose
successor enumeration agrees with the predecessors (the graph is a DAG):
each worklist step either stops (row unchanged) or replaces the item by
successors of strictly larger topological rank, so some finite fuel empties
the worklist.  Rows need not only grow: when the predecessor change removed
an edge, recomputed rows lose bits (see the counterexample). -/
theorem c5_update_terminates (g : Computation) (hg : WFGraph g)
    (hs : SuccsOK g) (m : ReachMap) (node : Nat) (hnode : node ∈ g.order) :
    ∃ k, (UpdateReachabilityThroughInstruction g m node k).1 = [] :=
  update_terminates_helper g hg hs m node hnode

theorem exG_succsOK : SuccsOK exG := ⟨by decide, by decide, by decide⟩

/-- Witness for the amended C5: the update of node 4 on the built example
graph empties its worklist at some fuel. -/
theorem c5_update_terminates_witness :
    ∃ k, (UpdateReachabilityThroughInstruction exG (Build exG) 4 k).1 = [] :=
  c5_update_terminates exG exG_wf exG_succsOK (Build exG) 4 (by decide)

/-! Claim C2: the incremental update is equivalent to a rebuild. -/

/-- Local consistency of the row of x: it holds exactly its own bit plus the
union of the bits of the rows of its direct predecessors. -/
def rowOK (g : Computation) (m : ReachMap) (x : Nat) : Prop :=
  ∀ i, ((m.row (g.order.indexOf x)).Get i = true ↔
    (i = g.order.indexOf x ∨
      ∃ p ∈ g.preds x, (m.row (g.order.indexOf p)).Get i = true))

/-- Worklist invariant of the update loop: the worklist holds instructions,
the index map and structure are intact, and every instruction off the
worklist has a locally consistent row. -/
def updateInv (g : Computation) (W : List Nat) (m : ReachMap) : Prop :=
  (∀ y ∈ W, y ∈ g.order) ∧ stdIndices g.order m ∧ WFMap g.order.length m ∧
    ∀ x ∈ g.order, x ∉ W → rowOK g m x

theorem bool_eq_of_iff (a b : Bool) (h : (a = true) ↔ (b = true)) : a = b := by
  cases a <;> cases b <;> simp_all

theorem rowOK_of_built (g : Computation) (hg : WFGraph g) (m : ReachMap)
    (hb : ∀ x ∈ g.order, builtRow g m x) (x : Nat) (hx : x ∈ g.order) :
    rowOK g m x := by
  intro i
  rw [hb x hx i]
  constructor
  · rintro ⟨hi, hr⟩
    rcases (reaches_iff_step g _ x).mp hr with heq | ⟨p, hp, hrp⟩
    · left
      rw [← heq, getD_indexOf_self g.order hg.nodup i hi]
    · right
      exact ⟨p, hp, (hb p (hg.predsWF x hx p hp) i).mpr ⟨hi, hrp⟩⟩
  · rintro (rfl | ⟨p, hp, hget⟩)
    · refine ⟨List.indexOf_lt_length.mpr hx, ?_⟩
      rw [indexOf_getD _ _ hx]
      exact Relation.ReflTransGen.refl
    · have hpm := hg.predsWF x hx p hp
      have h := (hb p hpm i).mp hget
      exact ⟨h.1, h.2.tail hp⟩

theorem rowOK_unique (g : Computation) (hg : WFGraph g) (m₁ m₂ : ReachMap)
    (h₁ : ∀ x ∈ g.order, rowOK g m₁ x) (h₂ : ∀ x ∈ g.order, rowOK g m₂ x) :
    ∀ x ∈ g.order, ∀ i, (m₁.row (g.order.indexOf x)).Get i
      = (m₂.row (g.order.indexOf x)).Get i := by
  have main : ∀ k x, x ∈ g.order → g.order.indexOf x = k → ∀ i,
      (m₁.row (g.order.indexOf x)).Get i = (m₂.row (g.order.indexOf x)).Get i := by
    intro k
    induction k using Nat.strong_induction_on with
    | _ k ih =>
        intro x hx hk i
        apply bool_eq_of_iff
        rw [h₁ x hx i, h₂ x hx i]
        apply or_congr Iff.rfl
        apply exists_congr
        intro p
        apply and_congr_right
        intro hp
        have hpm : p ∈ g.order := hg.predsWF x hx p hp
        have hrank : g.order.indexOf p < g.order.indexOf x := hg.topo x hx p hp
        rw [ih (g.order.indexOf p) (by omega) p hpm rfl i]
  exact fun x hx => main (g.order.indexOf x) x hx rfl

theorem updateInv_step (g : Computation) (hg : WFGraph g) (hs : SuccsOK g)
    (x : Nat) (rest : List Nat) (m : ReachMap)
    (hinv : updateInv g (x :: rest) m) :
    updateInv g (updateStep g (x :: rest, m)).1 (updateStep g (x :: rest, m)).2 := by
  obtain ⟨hW, hstd, hwf, hok⟩ := hinv
  have hx : x ∈ g.order := hW x (List.mem_cons_self x rest)
  have hidx : m.idxOf x = g.order.indexOf x := idxOf_eq_indexOf _ _ hstd x hx
  have hpxlt : m.idxOf x < g.order.length := idxOf_lt _ _ hstd x hx
  have hrow_self : (m.SetReachabilityToUnion (g.preds x) x).1.row (m.idxOf x)
      = m.unionRow (g.preds x) (m.idxOf x) :=
    setU_row_self m _ x (by rw [hwf.len_bv]; exact hpxlt)
  have hrow_ne : ∀ j, j ≠ m.idxOf x →
      (m.SetReachabilityToUnion (g.preds x) x).1.row j = m.row j :=
    fun j hj => setU_row_ne m _ x j hj
  have hpredrow : ∀ p ∈ g.preds x,
      (m.SetReachabilityToUnion (g.preds x) x).1.row (g.order.indexOf p)
        = m.row (g.order.indexOf p) := by
    intro p hp
    apply hrow_ne
    rw [hidx]
    have := hg.topo x hx p hp
    omega
  have hokx : rowOK g (m.SetReachabilityToUnion (g.preds x) x).1 x := by
    intro i
    rw [← hidx, hrow_self,
      get_unionRow g.order.length m hwf (g.preds x) (m.idxOf x) hpxlt i]
    apply or_congr Iff.rfl
    apply exists_congr
    intro p
    apply and_congr_right
    intro hp
    rw [hpredrow p hp, idxOf_eq_indexOf _ _ hstd p (hg.predsWF x hx p hp)]
  unfold updateStep
  simp only
  split
  · refine ⟨?_, hstd, WFMap_setU _ m hwf _ _, ?_⟩
    · intro y hy
      rcases List.mem_append.mp hy with h | h
      · exact hW y (List.mem_cons_of_mem x h)
      · exact hs.mem x hx y h
    · intro y hymem hynot
      by_cases hyx : y = x
      · subst hyx
        exact hokx
      · have hyrest : y ∉ rest := fun h => hynot (List.mem_append.mpr (Or.inl h))
        have hysucc : y ∉ g.succs x := fun h => hynot (List.mem_append.mpr (Or.inr h))
        have hxpred : x ∉ g.preds y := fun h => hysucc (hs.complete x hx y hymem h)
        have hoky : rowOK g m y := hok y hymem (by simp [hyx, hyrest])
        intro i
        have hrowy : (m.SetReachabilityToUnion (g.preds x) x).1.row
            (g.order.indexOf y) = m.row (g.order.indexOf y) := by
          apply hrow_ne
          rw [hidx]
          intro h
          exact hyx (indexOf_inj_mem g.order y x hymem hx h)
        rw [hrowy, hoky i]
        apply or_congr Iff.rfl
        apply exists_congr
        intro p
        apply and_congr_right
        intro hp
        have hpx : p ≠ x := fun h => hxpred (h ▸ hp)
        have hpm : p ∈ g.order := hg.predsWF y hymem p hp
        rw [hrow_ne (g.order.indexOf p) (by
          rw [hidx]
          intro h
          exact hpx (indexOf_inj_mem g.order p x hpm hx h))]
  · rename_i hchg
    have hfalse : (m.SetReachabilityToUnion (g.preds x) x).2 = false := by
      cases h : (m.SetReachabilityToUnion (g.preds x) x).2
      · rfl
      · exact absurd h hchg
    have hveq : (m.unionRow (g.preds x) (m.idxOf x)).vector
        = (m.row (m.idxOf x)).vector := by
      rw [setU_snd] at hfalse
      cases hb : ((m.unionRow (g.preds x) (m.idxOf x)).eqVec (m.row (m.idxOf x)))
      · rw [hb] at hfalse
        simp at hfalse
      · unfold BitVector.eqVec at hb
        exact (beq_iff_eq (a := (m.unionRow (g.preds x) (m.idxOf x)).vector)
          (b := (m.row (m.idxOf x)).vector)).mp hb
    have hget : ∀ j i, ((m.SetReachabilityToUnion (g.preds x) x).1.row j).Get i
        = (m.row j).Get i := by
      intro j i
      by_cases hj : j = m.idxOf x
      · subst hj
        rw [hrow_self]
        exact BitVector.get_congr _ _ hveq i
      · rw [hrow_ne j hj]
    refine ⟨?_, hstd, WFMap_setU _ m hwf _ _, ?_⟩
    · intro y hy
      exact hW y (List.mem_cons_of_mem x hy)
    · intro y hymem hynot
      by_cases hyx : y = x
      · subst hyx
        exact hokx
      · have hoky : rowOK g m y := hok y hymem (by simp [hyx, hynot])
        intro i
        simp only [hget]
        exact hoky i

theorem updateInv_loop (g : Computation) (hg : WFGraph g) (hs : SuccsOK g) :
    ∀ (fuel : Nat) (W : List Nat) (m : ReachMap), updateInv g W m →
      updateInv g (updateLoop g fuel (W, m)).1 (updateLoop g fuel (W, m)).2 := by
  intro fuel
  induction fuel with
  | zero =>
      intro W m h
      exact h
  | succ k ih =>
      intro W m h
      match W with
      | [] =>
          rw [updateLoop_nil]
          exact h
      | x :: rest =>
          rw [updateLoop]
          exact ih (updateStep g (x :: rest, m)).1 (updateStep g (x :: rest, m)).2
            (updateInv_step g hg hs x rest m h)

theorem BitVector.ext_struct (a b : BitVector) (hs : a.size = b.size)
    (hv : a.vector = b.vector) : a = b := by
  cases a
  cases b
  simp_all

theorem rows_eq_bit_vectors (n : Nat) (m₁ m₂ : ReachMap)
    (h₁ : WFMap n m₁) (h₂ : WFMap n m₂)
    (h : ∀ j < n, ∀ i, (m₁.row j).Get i = (m₂.row j).Get i) :
    m₁.bit_vectors = m₂.bit_vectors := by
  apply List.ext_getElem (by rw [h₁.len_bv, h₂.len_bv])
  intro j hj hj'
  have hjn : j < n := by
    rw [h₁.len_bv] at hj
    exact hj
  have e₁ : m₁.bit_vectors[j] = m₁.row j := by
    unfold ReachMap.row
    rw [List.getD_eq_getElem?_getD, List.getElem?_eq_getElem hj, Option.getD_some]
  have e₂ : m₂.bit_vectors[j] = m₂.row j := by
    unfold ReachMap.row
    rw [List.getD_eq_getElem?_getD, List.getElem?_eq_getElem hj', Option.getD_some]
  rw [e₁, e₂]
  obtain ⟨hs₁, hl₁, hw₁⟩ := row_props n m₁ h₁ j hjn
  obtain ⟨hs₂, hl₂, hw₂⟩ := row_props n m₂ h₂ j hjn
  exact BitVector.ext_struct _ _ (by rw [hs₁, hs₂])
    (BitVector.vector_eq_of_get _ _ (by rw [hl₁, hl₂]) hw₁ hw₂ (h j hjn))

/-- C2: starting from the full-closure build of a graph, adding an edge from
P to C (so only C's direct predecessor set changes) and running the update
propagation on C terminates, and whenever the worklist has emptied the matrix
is bit-for-bit identical, across all rows, to the full-closure build of the
mutated graph. -/
theorem c2_incremental_equivalence (g gm : Computation) (P C : Nat)
    (hord : gm.order = g.order) (hg : WFGraph g) (hgm : WFGraph gm)
    (hsm : SuccsOK gm) (hC : C ∈ g.order)
    (hpreds : ∀ x ∈ g.order, x ≠ C → gm.preds x = g.preds x)
    (hedge : gm.preds C = g.preds C ++ [P]) :
    (∃ k, (UpdateReachabilityThroughInstruction gm (Build g) C k).1 = []) ∧
      ∀ k, (UpdateReachabilityThroughInstruction gm (Build g) C k).1 = [] →
        (UpdateReachabilityThroughInstruction gm (Build g) C k).2.bit_vectors
          = (Build gm).bit_vectors := by
  obtain ⟨hstd0, hwf0, hbuilt0⟩ := build_props g hg
  have hCm : C ∈ gm.order := by
    rw [hord]
    exact hC
  have hinv0 : updateInv gm [C] (Build g) := by
    refine ⟨?_, ?_, ?_, ?_⟩
    · intro y hy
      rw [List.mem_singleton] at hy
      rw [hy]
      exact hCm
    · rw [show stdIndices gm.order (Build g) = stdIndices g.order (Build g) from
        by rw [hord]]
      exact hstd0
    · rw [show WFMap gm.order.length (Build g) = WFMap g.order.length (Build g) from
        by rw [hord]]
      exact hwf0
    · intro x hxmem hxnot
      have hxC : x ≠ C := by simpa using hxnot
      have hxg : x ∈ g.order := by
        rw [← hord]
        exact hxmem
      unfold rowOK
      rw [hord, hpreds x hxg hxC]
      exact rowOK_of_built g hg (Build g) hbuilt0 x hxg
  constructor
  · exact update_terminates_helper gm hgm hsm (Build g) C hCm
  · intro k hk
    have hinv := updateInv_loop gm hgm hsm k [C] (Build g) hinv0
    obtain ⟨hWend, hstdend, hwfend, hokend⟩ := hinv
    have hokend' : ∀ x ∈ gm.order,
        rowOK gm (updateLoop gm k ([C], Build g)).2 x := by
      intro x hx
      apply hokend x hx
      unfold UpdateReachabilityThroughInstruction at hk
      rw [hk]
      simp
    obtain ⟨hstd1, hwf1, hbuilt1⟩ := build_props gm hgm
    have hok1 : ∀ x ∈ gm.order, rowOK gm (Build gm) x :=
      fun x hx => rowOK_of_built gm hgm _ hbuilt1 x hx
    have hgets := rowOK_unique gm hgm _ _ hokend' hok1
    apply rows_eq_bit_vectors gm.order.length _ _ hwfend hwf1
    intro j hj i
    have hxmem : gm.order.getD j 0 ∈ gm.order := getD_mem_of_lt _ _ _ hj
    have h := hgets (gm.order.getD j 0) hxmem i
    rwa [getD_indexOf_self gm.order hgm.nodup j hj] at h

/-- The example graph before the edge from 1 to 4 is added: same nodes,
edges 1 to 2 and 2 to 3 only. -/
def exGsub : Computation :=
  { order := [1, 2, 3, 4]
  , preds := fun x => if x = 2 then [1] else if x = 3 then [2] else []
  , succs := fun x => if x = 1 then [2] else if x = 2 then [3] else [] }

/-- Witness for C2: adding the edge from 1 to 4 to the example graph and
updating node 4 yields, at fuel 10 (which empties the worklist), exactly the
rows of the from-scratch build of the mutated graph. -/
theorem c2_incremental_equivalence_witness :
    (UpdateReachabilityThroughInstruction exG (Build exGsub) 4 10).1 = [] ∧
      (UpdateReachabilityThroughInstruction exG (Build exGsub) 4 10).2.bit_vectors
        = (Build exG).bit_vectors := by
  have h := c2_incremental_equivalence exGsub exG 1 4 rfl
    ⟨by decide, by decide, by decide⟩ exG_wf exG_succsOK (by decide)
    (by decide) (by decide)
  have h1 : (UpdateReachabilityThroughInstruction exG (Build exGsub) 4 10).1 = [] := by
    decide
  exact ⟨h1, h.2 10 h1⟩

end HloReachability
